import Mathlib


/-!
Atom: a modal line editor (`src/main.cpp`)

A shallow embedding of the editing core of `main.cpp` and theorems about it.

Modelling conventions.

* A `std::string` is a `List Char`; `std::vector<std::string>` is a list of lines.
* The global variables of the program are the fields of `Editor`.
* `int` values are modelled by `Int`, container sizes by `Nat`.  Sizes and
  cursor values are taken to lie inside the `int` range, so the only
  conversions that matter are the two that the source really exercises:
  `buffer.size() - 1` evaluated on an empty vector (`size_t` wrap-around,
  read back as the `int` value `-1`, which is what `(0 : Int) - 1` gives), and
  the comparison of a negative `int` with a `size_t` (the `int` is converted
  to a huge unsigned value; see `ltSize` and `geSize`).
* An operation returns `none` when the C++ program leaves defined behaviour
  at that point: `operator[]` outside the container, an iterator outside
  `[begin, end]`, or a `std::out_of_range` exception that nobody catches.
  The one loop of the source without an evident bound, in `Replace`, takes a
  bound on its iterations; there `none` means that the loop is still running
  when the bound is used up.
* Terminal painting (`DisplayBuffer`, `move`, `printw`, ...) has no effect on
  the modelled state and is omitted.
* `ProcessInput` is modelled one key at a time (`step`, `run`); `Pc` records
  whether the program waits at the top of its loop or in the second read of
  `dd` / `yy`.  The text typed at the prompts of `Search` and `Replace` is
  supplied by `Env` and is not taken from the list of keys.
-/

namespace Atom

/-- One line of text (`std::string`). -/
abbrev Line := List Char

/-- The three input modes (`enum Mode`). -/
inductive Mode where
  | NORMAL
  | INSERT
  | COMMAND
deriving DecidableEq, Repr

/-- The global state of the editor; stacks have their top at the head. -/
structure Editor where
  buffer : List Line
  undoStack : List (Int × Line)
  redoStack : List (Int × Line)
  clipboard : List Line
  currentLine : Int
  currentColumn : Int
  filename : Line
  running : Bool
  currentMode : Mode
deriving DecidableEq, Repr

/-- The comparison `i < n` of an `int` with a `size_t`: a negative `i` is converted to a
value above every size. -/
def ltSize (i : Int) (n : Nat) : Bool := decide (0 ≤ i ∧ i < (n : Int))

/-- The comparison `i >= n` of an `int` with a `size_t`. -/
def geSize (i : Int) (n : Nat) : Bool := !ltSize i n

/-- The access `v[i]` with an `int` index; `none` outside the container. -/
def at? {α : Type} (v : List α) (i : Int) : Option α :=
  if i < 0 then none else v[i.toNat]?

/-- The cursor invariant of the data model: the line index points into the buffer and the
column lies between 0 and the length of that line. -/
def CursorValid (s : Editor) : Prop :=
  0 ≤ s.currentLine ∧ s.currentLine < (s.buffer.length : Int) ∧
  0 ≤ s.currentColumn ∧
  ∃ l, at? s.buffer s.currentLine = some l ∧ s.currentColumn ≤ (l.length : Int)

/-- Embedding of `MoveCursor` (lines 83-102). -/
def MoveCursor (s : Editor) (dx dy : Int) : Option Editor :=
  let newColumn := s.currentColumn + dx
  let newLine := s.currentLine + dy
  let newLine :=
    if newLine < 0 then 0
    else if geSize newLine s.buffer.length then (s.buffer.length : Int) - 1
    else newLine
  if newColumn < 0 then
    some { s with currentLine := newLine, currentColumn := 0 }
  else
    match at? s.buffer newLine with
    | none => none
    | some l =>
      let newColumn := if geSize newColumn l.length then (l.length : Int) else newColumn
      some { s with currentLine := newLine, currentColumn := newColumn }

/-- The motion keys of Normal mode (lines 263-274): `h`, `j`, `k`, `l`. -/
def motionKey (ch : Char) : Option (Int × Int) :=
  if ch = 'h' then some (-1, 0)
  else if ch = 'j' then some (0, 1)
  else if ch = 'k' then some (0, -1)
  else if ch = 'l' then some (1, 0)
  else none

/-- A run of motion keys, each handled by `MoveCursor`; keys that are not motions are
skipped. -/
def moveKeys : Editor → List Char → Option Editor
  | s, [] => some s
  | s, ch :: rest =>
    match motionKey ch with
    | none => moveKeys s rest
    | some (dx, dy) =>
      match MoveCursor s dx dy with
      | none => none
      | some s1 => moveKeys s1 rest

/-- Embedding of `Undo` (lines 104-116). -/
def Undo (s : Editor) : Option Editor :=
  match s.undoStack with
  | [] => some s
  | (line, text) :: rest =>
    match at? s.buffer line with
    | none => none
    | some cur =>
      some { s with undoStack := rest,
                    redoStack := (line, cur) :: s.redoStack,
                    buffer := s.buffer.set line.toNat text }

/-- Embedding of `Redo` (lines 118-130). -/
def Redo (s : Editor) : Option Editor :=
  match s.redoStack with
  | [] => some s
  | (line, text) :: rest =>
    match at? s.buffer line with
    | none => none
    | some cur =>
      some { s with redoStack := rest,
                    undoStack := (line, cur) :: s.undoStack,
                    buffer := s.buffer.set line.toNat text }

/-- Embedding of `CopyLine` (lines 132-135). -/
def CopyLine (s : Editor) : Option Editor :=
  match at? s.buffer s.currentLine with
  | none => none
  | some l => some { s with clipboard := [l] }

/-- Embedding of `CutLine` (lines 137-148). -/
def CutLine (s : Editor) : Option Editor :=
  if ltSize s.currentLine s.buffer.length then
    match at? s.buffer s.currentLine with
    | none => none
    | some l =>
      let buffer1 := s.buffer.eraseIdx s.currentLine.toNat
      let line1 :=
        if geSize s.currentLine buffer1.length then (buffer1.length : Int) - 1
        else s.currentLine
      some { s with undoStack := (s.currentLine, l) :: s.undoStack,
                    clipboard := [l],
                    buffer := buffer1,
                    currentLine := line1 }
  else some s

/-- Embedding of `PasteLine` (lines 150-156): the clipboard is inserted before the cursor
line. -/
def PasteLine (s : Editor) : Option Editor :=
  if s.clipboard ≠ [] then
    match at? s.buffer s.currentLine with
    | none => none
    | some l =>
      some { s with undoStack := (s.currentLine, l) :: s.undoStack,
                    buffer := s.buffer.take s.currentLine.toNat ++ s.clipboard ++
                              s.buffer.drop s.currentLine.toNat }
  else some s

/-- The conversion of a key code to `char` in `insert(pos, 1, ch)`. -/
def toChar (ch : Int) : Char := Char.ofNat (ch % 256).toNat

/-- The key code `KEY_BACKSPACE` of `curses.h`. -/
def KEY_BACKSPACE : Int := 263

/-- Insert-mode character insertion (lines 322-323): snapshot the line, insert at the
column, advance the column.  `std::string::insert` throws when the column is past the
end of the line. -/
def InsertChar (s : Editor) (ch : Int) : Option Editor :=
  match at? s.buffer s.currentLine with
  | none => none
  | some l =>
    if 0 ≤ s.currentColumn ∧ s.currentColumn ≤ (l.length : Int) then
      let col := s.currentColumn.toNat
      some { s with undoStack := (s.currentLine, l) :: s.undoStack,
                    buffer := s.buffer.set s.currentLine.toNat
                                (l.take col ++ [toChar ch] ++ l.drop col),
                    currentColumn := s.currentColumn + 1 }
    else none

/-- Insert-mode backspace (lines 315-320): nothing happens on an empty line or at column
0; otherwise snapshot the line, step the column back and erase one character there. -/
def Backspace (s : Editor) : Option Editor :=
  match at? s.buffer s.currentLine with
  | none => none
  | some l =>
    if l ≠ [] ∧ 0 < s.currentColumn then
      let col := (s.currentColumn - 1).toNat
      if col ≤ l.length then
        some { s with undoStack := (s.currentLine, l) :: s.undoStack,
                      buffer := s.buffer.set s.currentLine.toNat
                                  (l.take col ++ l.drop (col + 1)),
                      currentColumn := s.currentColumn - 1 }
      else none
    else some s

/-- The non-escape part of the Insert branch of `ProcessInput` (lines 314-326). -/
def insertKey (s : Editor) (ch : Int) : Option Editor :=
  if ch = KEY_BACKSPACE ∨ ch = 127 then Backspace s else InsertChar s ch

/-- A session state with the given buffer and cursor and everything else as at program
start. -/
def initial (buffer : List Line) (line col : Int) : Editor :=
  { buffer := buffer, undoStack := [], redoStack := [], clipboard := [],
    currentLine := line, currentColumn := col, filename := [], running := true,
    currentMode := Mode.NORMAL }

/-- The search `std::string::find(pat, 0)` on the text from some position on: the lowest
offset at which `pat` occurs, `none` for `npos`. -/
def findAt (pat : Line) : Line → Option Nat
  | [] => if pat.isPrefixOf [] then some 0 else none
  | c :: cs => if pat.isPrefixOf (c :: cs) then some 0 else (findAt pat cs).map (· + 1)

/-- The library call `line.find(pat, pos)`: the lowest position `p ≥ pos` at which `pat`
occurs in `line`; `npos` (here `none`) when there is none or when `pos > line.size()`. -/
def find (line pat : Line) (pos : Nat) : Option Nat :=
  if pos ≤ line.length then (findAt pat (line.drop pos)).map (· + pos) else none

/-- The `while` loop of `Replace` for one line (lines 174-178), with `pos` the scan
pointer.  The loop has no bound in the source; `fuel` bounds the number of evaluations of
the loop condition and `none` means the loop is still running when it is used up. -/
def replaceLoop (findQuery replaceQuery : Line) : Nat → Line → Nat → Option Line
  | 0, _, _ => none
  | fuel + 1, line, pos =>
    match find line findQuery pos with
    | none => some line
    | some p =>
      replaceLoop findQuery replaceQuery fuel
        (line.take p ++ replaceQuery ++ line.drop (p + findQuery.length))
        (p + replaceQuery.length)

/-- The `for` loop of `Replace` over the lines of the buffer (lines 173-179). -/
def replaceLines (findQuery replaceQuery : Line) (fuel : Nat) : List Line → Option (List Line)
  | [] => some []
  | line :: rest =>
    match replaceLoop findQuery replaceQuery fuel line 0 with
    | none => none
    | some line1 =>
      match replaceLines findQuery replaceQuery fuel rest with
      | none => none
      | some rest1 => some (line1 :: rest1)

/-- Embedding of `Replace` (lines 158-182); the two strings read at the prompts are
arguments.  `none` means the substitution loop does not finish within `fuel`. -/
def Replace (fuel : Nat) (s : Editor) (findQuery replaceQuery : Line) : Option Editor :=
  match replaceLines findQuery replaceQuery fuel s.buffer with
  | none => none
  | some buffer1 => some { s with buffer := buffer1 }

/-- Reference substitution, following the words of the specification: scan from the left;
when `find` occurs at the scan pointer emit `replace` and resume right after the
occurrence, otherwise keep the character and advance by one.  The first argument bounds
the number of steps; the length of the line is enough for a non-empty `find`. -/
def substituteAux (find replace : Line) : Nat → Line → Line
  | 0, line => line
  | _ + 1, [] => []
  | n + 1, c :: cs =>
    if find.isPrefixOf (c :: cs) then
      replace ++ substituteAux find replace n ((c :: cs).drop find.length)
    else c :: substituteAux find replace n cs

/-- Reference `substituteAll(find, replace)` of the specification on one line. -/
def substituteAllSpec (find replace line : Line) : Line :=
  substituteAux find replace line.length line

/-- The `for` loop of `Search` (lines 197-205) over the lines from index `i` on; the
result is the new cursor when a line matches. -/
def searchLines (searchQuery : Line) (currentLine searchPos : Int) :
    List Line → Int → Option (Int × Int)
  | [], _ => none
  | l :: rest, i =>
    let start : Int := if i = currentLine ∧ searchPos ≠ -1 then searchPos + 1 else 0
    match find l searchQuery start.toNat with
    | some pos => some (i, (pos : Int))
    | none => searchLines searchQuery currentLine searchPos rest (i + 1)

/-- Embedding of `Search` (lines 184-211); the query read at the prompt is an argument.
The second component tells whether a match was found (otherwise the program prints
`Pattern not found`). -/
def Search (s : Editor) (searchQuery : Line) : Editor × Bool :=
  let searchPos : Int := -1
  if s.currentLine < 0 then (s, false)
  else
    match searchLines searchQuery s.currentLine searchPos
        (s.buffer.drop s.currentLine.toNat) s.currentLine with
    | some (i, pos) => ({ s with currentLine := i, currentColumn := pos }, true)
    | none => (s, false)

/-- The files that can be opened for reading, as a partial map from paths to contents. -/
abbrev FileSystem := Line → Option (List Char)

/-- The loop `while (std::getline(file, line)) buffer.push_back(line)` on the text of a
file: lines end at a newline, and a last line without newline counts when it is not
empty. -/
def readLines : List Char → List Line
  | [] => []
  | c :: cs =>
    if c = '\n' then [] :: readLines cs
    else
      match readLines cs with
      | [] => [[c]]
      | l :: ls => (c :: l) :: ls

/-- Embedding of `LoadFile` (lines 22-36). -/
def LoadFile (fs : FileSystem) (s : Editor) (filename : Line) : Editor :=
  match fs filename with
  | none => s
  | some content => { s with buffer := readLines content }

/-- The text `SaveFile` writes (lines 45-47): every line followed by a newline. -/
def savedText (buffer : List Line) : List Char :=
  match buffer with
  | [] => []
  | line :: rest => line ++ '\n' :: savedText rest

/-- Embedding of `SaveFile` (lines 38-50): `writable` tells whether the path can be opened
for writing. -/
def SaveFile (writable : Line → Bool) (fs : FileSystem) (s : Editor) (filename : Line) :
    FileSystem :=
  if writable filename then
    fun path => if path = filename then some (savedText s.buffer) else fs path
  else fs

/-- What the surroundings supply to `ProcessCommand`: the text typed at the prompts of
`Search` and `Replace`, which paths can be written, a bound for the loop of `Replace`,
and the two functions `NextMatch` and `PreviousMatch`, which the source calls but does
not define. -/
structure Env where
  writable : Line → Bool
  searchQuery : Line
  findQuery : Line
  replaceQuery : Line
  fuel : Nat
  NextMatch : Editor → Option Editor
  PreviousMatch : Editor → Option Editor

/-- How a call of `ProcessCommand` ends: it returns with a state and a file system, it
calls `exit(0)`, or it does not return (undefined behaviour, or the loop of `Replace`
outlasts its bound). -/
inductive Outcome where
  | next (s : Editor) (fs : FileSystem)
  | exit
  | stuck

/-- Continue with the given state, or stop when there is none. -/
def Outcome.ofOption (fs : FileSystem) : Option Editor → Outcome
  | some s => Outcome.next s fs
  | none => Outcome.stuck

/-- Embedding of `ProcessCommand` (lines 213-239). -/
def ProcessCommand (env : Env) (fs : FileSystem) (s : Editor) (command : Line) : Outcome :=
  if command = ['w'] then Outcome.next s (SaveFile env.writable fs s s.filename)
  else if command = ['q'] then Outcome.exit
  else if command = ['u'] then Outcome.ofOption fs (Undo s)
  else if command = ['r'] then Outcome.ofOption fs (Redo s)
  else if command = ['/'] then Outcome.next (Search s env.searchQuery).1 fs
  else if command = ['n'] then Outcome.ofOption fs (env.NextMatch s)
  else if command = ['N'] then Outcome.ofOption fs (env.PreviousMatch s)
  else if command = [':', 's'] then
    Outcome.ofOption fs (Replace env.fuel s env.findQuery env.replaceQuery)
  else if command.take 2 = ['e', ' '] then
    let s1 := { s with filename := command.drop 2 }
    Outcome.next (LoadFile fs s1 s1.filename) fs
  else Outcome.next s fs

/-- A bound on the loop that is enough for every line of the buffer. -/
def enoughFuel (buffer : List Line) : Nat := (buffer.map List.length).sum + 1

/-- The projection of an outcome on the editor state, when the call returned. -/
def Outcome.state? : Outcome → Option Editor
  | Outcome.next s _ => some s
  | _ => none

/-- A file system that holds the single file `f` with the two lines `x` and `y`. -/
def oneFile : FileSystem :=
  fun path => if path = ['f'] then some ['x', '\n', 'y', '\n'] else none

/-- Surroundings in which the prompts are answered with empty text and the two undefined
search functions do nothing. -/
def quietEnv : Env :=
  { writable := fun _ => true, searchQuery := [], findQuery := [], replaceQuery := [],
    fuel := 0, NextMatch := fun s => some s, PreviousMatch := fun s => some s }

/-- The key code `getch` returns for a character. -/
def key (c : Char) : Int := (c.toNat : Int)

/-- The place at which `ProcessInput` is blocked in `getch`: at the top of the loop body
(line 246), or in the second read of the two-key commands `dd` (line 276) and `yy`
(line 281). -/
inductive Pc where
  | main
  | pendingD
  | pendingY
deriving DecidableEq, Repr

/-- The state of a session while `ProcessInput` runs: the globals, the file system, the
local `commandBuffer`, and the place of the pending read. -/
structure Session where
  ed : Editor
  fs : FileSystem
  commandBuffer : Line
  pc : Pc

/-- What `ProcessInput` has come to after some keys: it waits for the next key, its loop has
ended (`running` is false), the program has called `exit(0)`, or it has left defined
behaviour or hangs in the loop of `Replace`. -/
inductive Run where
  | waiting (σ : Session)
  | finished (σ : Session)
  | exited
  | stuck

/-- Go on waiting with the new editor state, or stop when there is none. -/
def Run.ofOption (σ : Session) : Option Editor → Run
  | some e => Run.waiting { σ with ed := e, pc := Pc.main }
  | none => Run.stuck

/-- The Normal branch of `ProcessInput` (lines 249-306) for the key `ch`. -/
def normalKey (env : Env) (σ : Session) (ch : Int) : Run :=
  if ch = key 'i' then
    Run.waiting { σ with ed := { σ.ed with currentMode := Mode.INSERT } }
  else if ch = key ':' then
    Run.waiting { σ with ed := { σ.ed with currentMode := Mode.COMMAND } }
  else if ch = key 'h' then Run.ofOption σ (MoveCursor σ.ed (-1) 0)
  else if ch = key 'j' then Run.ofOption σ (MoveCursor σ.ed 0 1)
  else if ch = key 'k' then Run.ofOption σ (MoveCursor σ.ed 0 (-1))
  else if ch = key 'l' then Run.ofOption σ (MoveCursor σ.ed 1 0)
  else if ch = key 'd' then Run.waiting { σ with pc := Pc.pendingD }
  else if ch = key 'y' then Run.waiting { σ with pc := Pc.pendingY }
  else if ch = key 'p' then Run.ofOption σ (PasteLine σ.ed)
  else if ch = key 'u' then Run.ofOption σ (Undo σ.ed)
  else if ch = key '/' then Run.ofOption σ (some (Search σ.ed env.searchQuery).1)
  else if ch = key 'n' then Run.ofOption σ (env.NextMatch σ.ed)
  else if ch = key 'N' then Run.ofOption σ (env.PreviousMatch σ.ed)
  else if ch = 26 then Run.finished { σ with ed := { σ.ed with running := false } }
  else if ch = 18 then Run.ofOption σ (Redo σ.ed)
  else Run.waiting σ

/-- The Insert branch of `ProcessInput` (lines 308-327) for the key `ch`. -/
def insertModeKey (σ : Session) (ch : Int) : Run :=
  if ch = 27 then Run.waiting { σ with ed := { σ.ed with currentMode := Mode.NORMAL } }
  else Run.ofOption σ (insertKey σ.ed ch)

/-- What follows the call of `ProcessCommand` in the Command branch (lines 331-332): when
the call returns, the accumulator is cleared and the mode set to Normal. -/
def Run.ofOutcome : Outcome → Run
  | Outcome.next e fs1 =>
    Run.waiting { ed := { e with currentMode := Mode.NORMAL }, fs := fs1,
                  commandBuffer := [], pc := Pc.main }
  | Outcome.exit => Run.exited
  | Outcome.stuck => Run.stuck

/-- The Command branch of `ProcessInput` (lines 329-339) for the key `ch`: on Enter the
accumulated command is dispatched, the accumulator cleared and the mode set to Normal;
any other key is appended to the accumulator. -/
def commandKey (env : Env) (σ : Session) (ch : Int) : Run :=
  if ch = key '\r' then Run.ofOutcome (ProcessCommand env σ.fs σ.ed σ.commandBuffer)
  else Run.waiting { σ with commandBuffer := σ.commandBuffer ++ [toChar ch] }

/-- One key handed to `ProcessInput`: either the second key of `dd` or `yy`, or a key read
at the top of the loop, which is only read while `running` holds. -/
def step (env : Env) (σ : Session) (ch : Int) : Run :=
  match σ.pc with
  | Pc.pendingD =>
    if ch = key 'd' then Run.ofOption σ (CutLine σ.ed)
    else Run.waiting { σ with pc := Pc.main }
  | Pc.pendingY =>
    if ch = key 'y' then Run.ofOption σ (CopyLine σ.ed)
    else Run.waiting { σ with pc := Pc.main }
  | Pc.main =>
    if σ.ed.running = false then Run.finished σ
    else
      match σ.ed.currentMode with
      | Mode.NORMAL => normalKey env σ ch
      | Mode.INSERT => insertModeKey σ ch
      | Mode.COMMAND => commandKey env σ ch

/-- Embedding of `ProcessInput` (lines 241-345) on the keys that arrive, in order. -/
def run (env : Env) : Session → List Int → Run
  | σ, [] => Run.waiting σ
  | σ, ch :: rest =>
    match step env σ ch with
    | Run.waiting σ1 => run env σ1 rest
    | r => r

/-- The session at the start of `ProcessInput`. -/
def Session.start (e : Editor) (fs : FileSystem) : Session :=
  { ed := e, fs := fs, commandBuffer := [], pc := Pc.main }

/-- The editor state of a run that waits for a key or has ended its loop. -/
def Run.editor? : Run → Option Editor
  | Run.waiting σ => some σ.ed
  | Run.finished σ => some σ.ed
  | _ => none

/-- Whether the run has left defined behaviour. -/
def Run.isStuck : Run → Bool
  | Run.stuck => true
  | _ => false

/-- The call `Undo()` made `k` times in a row. -/
def undoTimes : Nat → Editor → Option Editor
  | 0, e => some e
  | k + 1, e =>
    match Undo e with
    | none => none
    | some e1 => undoTimes k e1

/-- Every entry of the two history stacks names a line of the buffer. -/
def HistoryInRange (e : Editor) : Prop :=
  ∀ entry ∈ e.undoStack ++ e.redoStack, 0 ≤ entry.1 ∧ entry.1 < (e.buffer.length : Int)

/-- The cursor invariant as a test that can be evaluated. -/
def cursorOk (s : Editor) : Bool :=
  match at? s.buffer s.currentLine with
  | none => false
  | some l => decide (0 ≤ s.currentColumn ∧ s.currentColumn ≤ (l.length : Int))

/-- The invariant of the command accumulator: outside Command mode it is empty, and the
second key of `dd` or `yy` is only awaited in Normal mode. -/
def AccInv (σ : Session) : Prop :=
  (σ.ed.currentMode ≠ Mode.COMMAND → σ.commandBuffer = []) ∧
  (σ.pc ≠ Pc.main → σ.ed.currentMode = Mode.NORMAL)

/-! ## Theorems -/

/-- The model of the `getline` loop on three small files: an empty line in the middle is
kept, a final newline adds no line, and a last line without newline is read. -/
theorem readLines_examples :
    readLines ['a', '\n', '\n', 'b'] = [['a'], [], ['b']] ∧
    readLines ['a', '\n', 'b', '\n'] = [['a'], ['b']] ∧
    readLines [] = [] ∧ readLines ['\n'] = [[]] := by
  decide

/-- The model of `std::string::find` on small inputs: the lowest match at or after the
start position, a miss past the last match, the empty pattern at the end of the text and
a start position beyond the end. -/
theorem find_examples :
    find ['a', 'b', 'c', 'a', 'b'] ['a', 'b'] 0 = some 0 ∧
    find ['a', 'b', 'c', 'a', 'b'] ['a', 'b'] 1 = some 3 ∧
    find ['a', 'b', 'c', 'a', 'b'] ['a', 'b'] 4 = none ∧
    find ['a', 'b'] [] 2 = some 2 ∧ find ['a', 'b'] [] 3 = none := by
  decide

/-- With a non-negative index, `at?` is the list lookup. -/
theorem at?_of_nonneg {α : Type} (v : List α) {i : Int} (h : 0 ≤ i) :
    at? v i = v[i.toNat]? := by
  unfold at?
  rw [if_neg (by omega)]

/-- An index inside the container is a defined access. -/
theorem at?_isSome {α : Type} (v : List α) {i : Int} (h0 : 0 ≤ i) (h1 : i < (v.length : Int)) :
    ∃ x, at? v i = some x := by
  rw [at?_of_nonneg v h0]
  have hlt : i.toNat < v.length := by omega
  exact ⟨v[i.toNat], List.getElem?_eq_getElem hlt⟩

/-- A defined access has its index inside the container. -/
theorem at?_some_bounds {α : Type} {v : List α} {i : Int} {x : α} (h : at? v i = some x) :
    0 ≤ i ∧ i < (v.length : Int) := by
  unfold at? at h
  split at h
  · cases h
  · have := (List.getElem?_eq_some.mp h).1
    omega

/-- The mixed comparison `i < n` holds exactly for `0 ≤ i < n`. -/
theorem ltSize_iff (i : Int) (n : Nat) : ltSize i n = true ↔ 0 ≤ i ∧ i < (n : Int) := by
  simp [ltSize]

/-- The mixed comparison `i >= n` holds exactly for a negative `i` or `n ≤ i`. -/
theorem geSize_iff (i : Int) (n : Nat) : geSize i n = true ↔ (i < 0 ∨ (n : Int) ≤ i) := by
  simp only [geSize, ltSize, Bool.not_eq_true', decide_eq_false_iff_not]
  omega

/-- On a buffer with at least one line, `MoveCursor` returns, leaves the buffer alone and
establishes the cursor invariant, whatever the cursor was before. -/
theorem MoveCursor_cursorValid (s : Editor) (dx dy : Int) (h : s.buffer ≠ []) :
    ∃ s1, MoveCursor s dx dy = some s1 ∧ s1.buffer = s.buffer ∧ CursorValid s1 := by
  have hlen : 0 < s.buffer.length := List.length_pos.mpr h
  obtain ⟨nl, hnl, hnl0, hnl1⟩ : ∃ nl : Int,
      (if s.currentLine + dy < 0 then (0 : Int)
        else if geSize (s.currentLine + dy) s.buffer.length then (s.buffer.length : Int) - 1
        else s.currentLine + dy) = nl ∧ 0 ≤ nl ∧ nl < (s.buffer.length : Int) := by
    refine ⟨_, rfl, ?_, ?_⟩
    · split
      · omega
      · split
        · omega
        · omega
    · split
      · omega
      · split
        · omega
        · rename_i h1 h2
          have := (geSize_iff (s.currentLine + dy) s.buffer.length).not.mp h2
          omega
  obtain ⟨l, hl⟩ := at?_isSome s.buffer hnl0 hnl1
  unfold MoveCursor
  simp only [hnl]
  by_cases hc : s.currentColumn + dx < 0
  · rw [if_pos hc]
    refine ⟨_, rfl, rfl, hnl0, hnl1, le_refl _, l, hl, ?_⟩
    simp
  · rw [if_neg hc]
    simp only [hl]
    refine ⟨_, rfl, rfl, hnl0, hnl1, ?_, l, hl, ?_⟩
    · show 0 ≤ (if geSize (s.currentColumn + dx) l.length then (l.length : Int) else s.currentColumn + dx)
      split <;> omega
    · show (if geSize (s.currentColumn + dx) l.length then (l.length : Int) else s.currentColumn + dx) ≤ _
      split
      · omega
      · rename_i h2
        have := (geSize_iff (s.currentColumn + dx) l.length).not.mp h2
        omega

/-- A run of motion keys on a buffer with at least one line returns, leaves the buffer
alone and ends in a state with the cursor invariant, as soon as the cursor was valid at
the start or the run holds a motion key. -/
theorem moveKeys_cursorValid (keys : List Char) (s : Editor) (h : s.buffer ≠ [])
    (hv : CursorValid s ∨ ∃ k ∈ keys, (motionKey k).isSome = true) :
    ∃ s1, moveKeys s keys = some s1 ∧ s1.buffer = s.buffer ∧ CursorValid s1 := by
  induction keys generalizing s with
  | nil =>
    rcases hv with hv | ⟨k, hk, _⟩
    · exact ⟨s, rfl, rfl, hv⟩
    · simp at hk
  | cons ch rest ih =>
    unfold moveKeys
    cases hm : motionKey ch with
    | none =>
      simp only
      apply ih s h
      rcases hv with hv | ⟨k, hk, hks⟩
      · exact Or.inl hv
      · rcases List.mem_cons.mp hk with rfl | hk
        · rw [hm] at hks; simp at hks
        · exact Or.inr ⟨k, hk, hks⟩
    | some d =>
      obtain ⟨dx, dy⟩ := d
      obtain ⟨s1, h1, hb, hv1⟩ := MoveCursor_cursorValid s dx dy h
      simp only [h1]
      obtain ⟨s2, h2, hb2, hv2⟩ := ih s1 (by rw [hb]; exact h) (Or.inl hv1)
      exact ⟨s2, h2, by rw [hb2, hb], hv2⟩

/-- C1 (does not hold on the zero-line buffer): with no lines in the buffer and the cursor
at (0,0), the key `h` makes `MoveCursor` set `currentLine` to `-1`, which breaks
`0 ≤ currentLine < buffer.size()`, and the key `j` makes it index the empty buffer. -/
theorem C1_MoveCursor_zero_line_buffer :
    moveKeys (initial [] 0 0) ['h'] = some (initial [] (-1) 0) ∧
    ¬ CursorValid (initial [] (-1) 0) ∧
    MoveCursor (initial [] 0 0) 0 1 = none ∧
    moveKeys (initial [] 0 0) ['j'] = none := by
  refine ⟨by decide, ?_, by decide, by decide⟩
  intro hv
  exact absurd hv.1 (by decide)

/-- Writing back the element that is already there changes nothing. -/
theorem set_of_getElem? {α : Type} (l : List α) (n : Nat) (a : α) (h : l[n]? = some a) :
    l.set n a = l := by
  induction l generalizing n with
  | nil => rfl
  | cons x xs ih =>
    cases n with
    | zero => simp at h; simp [h]
    | succ m => simp at h; simp [ih m h]

/-- An edit that snapshots line `line` on the undo stack and then rewrites that line in
place is reversed by `Undo`, and `Redo` brings the edit back. -/
theorem Undo_Redo_line_edit (s s1 : Editor) (line : Int) (old new : Line)
    (hold : at? s.buffer line = some old)
    (hu : s1.undoStack = (line, old) :: s.undoStack)
    (hb : s1.buffer = s.buffer.set line.toNat new) :
    ∃ s2 s3, Undo s1 = some s2 ∧ s2.buffer = s.buffer ∧ s2.undoStack = s.undoStack ∧
      s2.redoStack = (line, new) :: s1.redoStack ∧
      Redo s2 = some s3 ∧ s3.buffer = s1.buffer ∧ s3.undoStack = s1.undoStack ∧
      s3.redoStack = s1.redoStack := by
  obtain ⟨h0, h1⟩ := at?_some_bounds hold
  have hlt : line.toNat < s.buffer.length := by omega
  have hold2 : s.buffer[line.toNat]? = some old := by rw [← at?_of_nonneg s.buffer h0]; exact hold
  have hnew : at? (s.buffer.set line.toNat new) line = some new := by
    rw [at?_of_nonneg _ h0]
    simp [hlt]
  have hsame : (s.buffer.set line.toNat new).set line.toNat old = s.buffer := by
    rw [List.set_set, set_of_getElem? _ _ _ hold2]
  have hold3 : at? s.buffer line = some old := hold
  refine ⟨{ s1 with undoStack := s.undoStack, redoStack := (line, new) :: s1.redoStack,
                    buffer := s.buffer }, s1, ?_, rfl, rfl, rfl, ?_, rfl, rfl, rfl⟩
  · unfold Undo
    rw [hu, hb]
    simp only [hnew, hsame]
  · unfold Redo
    simp only [hold3]
    have : s.buffer.set line.toNat new = s1.buffer := hb.symm
    simp only [this, ← hu]

/-- Insert-mode character insertion with a valid cursor returns, snapshots the cursor line
and rewrites it in place. -/
theorem InsertChar_eq (s : Editor) (ch : Int) (hv : CursorValid s) :
    ∃ s1 l, at? s.buffer s.currentLine = some l ∧ InsertChar s ch = some s1 ∧
      s1.undoStack = (s.currentLine, l) :: s.undoStack ∧
      s1.buffer = s.buffer.set s.currentLine.toNat
        (l.take s.currentColumn.toNat ++ [toChar ch] ++ l.drop s.currentColumn.toNat) ∧
      s1.redoStack = s.redoStack ∧ s1.currentLine = s.currentLine ∧
      s1.currentColumn = s.currentColumn + 1 := by
  obtain ⟨_, _, hc0, l, hl, hc1⟩ := hv
  refine ⟨{ s with
      undoStack := (s.currentLine, l) :: s.undoStack,
      buffer := s.buffer.set s.currentLine.toNat
        (l.take s.currentColumn.toNat ++ [toChar ch] ++ l.drop s.currentColumn.toNat),
      currentColumn := s.currentColumn + 1 }, l, hl, ?_, rfl, rfl, rfl, rfl, rfl⟩
  unfold InsertChar
  simp only [hl]
  rw [if_pos ⟨hc0, hc1⟩]

/-- Insert-mode backspace with a valid cursor that is not at column 0 returns, snapshots
the cursor line and rewrites it in place. -/
theorem Backspace_eq (s : Editor) (hv : CursorValid s) (hcol : 0 < s.currentColumn) :
    ∃ s1 l, at? s.buffer s.currentLine = some l ∧ Backspace s = some s1 ∧
      s1.undoStack = (s.currentLine, l) :: s.undoStack ∧
      s1.buffer = s.buffer.set s.currentLine.toNat
        (l.take (s.currentColumn - 1).toNat ++ l.drop ((s.currentColumn - 1).toNat + 1)) ∧
      s1.redoStack = s.redoStack ∧ s1.currentLine = s.currentLine ∧
      s1.currentColumn = s.currentColumn - 1 := by
  obtain ⟨_, _, _, l, hl, hc1⟩ := hv
  have hne : l ≠ [] := by
    intro h
    rw [h] at hc1
    simp at hc1
    omega
  have hle : (s.currentColumn - 1).toNat ≤ l.length := by omega
  refine ⟨{ s with
      undoStack := (s.currentLine, l) :: s.undoStack,
      buffer := s.buffer.set s.currentLine.toNat
        (l.take (s.currentColumn - 1).toNat ++ l.drop ((s.currentColumn - 1).toNat + 1)),
      currentColumn := s.currentColumn - 1 }, l, hl, ?_, rfl, rfl, rfl, rfl, rfl⟩
  unfold Backspace
  simp only [hl]
  rw [if_pos ⟨hne, hcol⟩, if_pos hle]

/-- Insert-mode character insertion with a valid cursor is reversed by `Undo` and brought
back by `Redo`. -/
theorem InsertChar_Undo_Redo (s : Editor) (ch : Int) (hv : CursorValid s) :
    ∃ s1 s2 s3, InsertChar s ch = some s1 ∧ Undo s1 = some s2 ∧ s2.buffer = s.buffer ∧
      Redo s2 = some s3 ∧ s3.buffer = s1.buffer := by
  obtain ⟨s1, l, hl, hI, hu1, hb1, _⟩ := InsertChar_eq s ch hv
  obtain ⟨s2, s3, hu, hb2, _, _, hr, hb3, _, _⟩ :=
    Undo_Redo_line_edit s s1 s.currentLine l _ hl hu1 hb1
  exact ⟨s1, s2, s3, hI, hu, hb2, hr, hb3⟩

/-- Insert-mode backspace with a valid cursor that is not at column 0 changes the buffer,
is reversed by `Undo` and brought back by `Redo`. -/
theorem Backspace_Undo_Redo (s : Editor) (hv : CursorValid s) (hcol : 0 < s.currentColumn) :
    ∃ s1 s2 s3, Backspace s = some s1 ∧ s1.buffer ≠ s.buffer ∧ Undo s1 = some s2 ∧
      s2.buffer = s.buffer ∧ Redo s2 = some s3 ∧ s3.buffer = s1.buffer := by
  obtain ⟨s1, l, hl, hB, hu1, hb1, _⟩ := Backspace_eq s hv hcol
  obtain ⟨s2, s3, hu, hb2, _, _, hr, hb3, _, _⟩ :=
    Undo_Redo_line_edit s s1 s.currentLine l _ hl hu1 hb1
  refine ⟨s1, s2, s3, hB, ?_, hu, hb2, hr, hb3⟩
  obtain ⟨h0, h1, _, l2, hl2, hc1⟩ := hv
  rw [hl] at hl2
  cases hl2
  intro heq
  rw [hb1] at heq
  have hlt : s.currentLine.toNat < s.buffer.length := by omega
  have hget := congrArg (fun b => b[s.currentLine.toNat]?) heq
  simp only [List.getElem?_set_self hlt] at hget
  rw [← at?_of_nonneg s.buffer h0, hl] at hget
  have hlen := congrArg List.length (Option.some.inj hget)
  simp at hlen
  omega

/-- A list splits around every index inside it. -/
theorem split_at {α : Type} (b : List α) (i : Int) (h0 : 0 ≤ i) (h1 : i < (b.length : Int)) :
    ∃ pre x post, b = pre ++ x :: post ∧ i = (pre.length : Int) := by
  have hlt : i.toNat < b.length := by omega
  refine ⟨b.take i.toNat, b[i.toNat], b.drop (i.toNat + 1), ?_, ?_⟩
  · rw [← List.drop_eq_getElem_cons hlt, List.take_append_drop]
  · rw [List.length_take]
    omega

/-- The access right after a prefix. -/
theorem at?_append_cons {α : Type} (pre post : List α) (x : α) :
    at? (pre ++ x :: post) (pre.length : Int) = some x := by
  rw [at?_of_nonneg _ (by omega)]
  show (pre ++ x :: post)[pre.length]? = some x
  rw [List.getElem?_append_right (le_refl _)]
  simp

/-- Erasing the element right after a prefix. -/
theorem eraseIdx_append_cons {α : Type} (pre post : List α) (x : α) :
    (pre ++ x :: post).eraseIdx pre.length = pre ++ post := by
  induction pre with
  | nil => rfl
  | cons a as ih => simp [List.eraseIdx, ih]

/-- What `CutLine` does when the cursor is on line `l`, with `pre` the lines above it and
`post` the lines below it. -/
theorem CutLine_split (s : Editor) (pre post : List Line) (l : Line)
    (hb : s.buffer = pre ++ l :: post) (hc : s.currentLine = (pre.length : Int)) :
    CutLine s = some { s with
      undoStack := (s.currentLine, l) :: s.undoStack,
      clipboard := [l],
      buffer := pre ++ post,
      currentLine := if post = [] then (pre.length : Int) - 1 else (pre.length : Int) } := by
  have hlt : ltSize s.currentLine s.buffer.length = true := by
    rw [ltSize_iff, hb, hc]
    simp
  have hat : at? s.buffer s.currentLine = some l := by
    rw [hb, hc]
    exact at?_append_cons pre post l
  have her : s.buffer.eraseIdx s.currentLine.toNat = pre ++ post := by
    rw [hb, hc]
    exact eraseIdx_append_cons pre post l
  unfold CutLine
  rw [if_pos hlt]
  simp only [hat, her]
  congr 2
  by_cases hp : post = []
  · rw [if_pos hp, if_pos]
    · simp [hp]
    · rw [geSize_iff, hc, hp]
      simp
  · rw [if_neg hp, if_neg]
    · exact hc
    · rw [geSize_iff, hc]
      have : 0 < post.length := List.length_pos.mpr hp
      simp only [List.length_append]
      push_cast
      omega

/-- What `PasteLine` does with a non-empty clipboard when the cursor is on line `l`. -/
theorem PasteLine_split (s : Editor) (pre post : List Line) (l : Line)
    (hb : s.buffer = pre ++ l :: post) (hc : s.currentLine = (pre.length : Int))
    (hclip : s.clipboard ≠ []) :
    PasteLine s = some { s with
      undoStack := (s.currentLine, l) :: s.undoStack,
      buffer := pre ++ s.clipboard ++ l :: post } := by
  have hat : at? s.buffer s.currentLine = some l := by
    rw [hb, hc]
    exact at?_append_cons pre post l
  unfold PasteLine
  rw [if_pos hclip]
  simp only [hat]
  congr 2
  rw [hb, hc]
  simp

/-- C2 (fails for line cut and line paste): `Undo` writes the snapshot back over the line
that now has the recorded index. After cutting line 0 of `["a","b"]` it overwrites the
remaining `"b"`, leaving `["a"]`; after cutting the last line the recorded index lies
outside the buffer; after pasting `"x"` above `"a"` it overwrites the pasted line,
leaving `["a","a","b"]`. -/
theorem C2_Undo_after_CutLine_PasteLine :
    ((CutLine (initial [['a'], ['b']] 0 0)).bind Undo).map Editor.buffer = some [['a']] ∧
    (CutLine (initial [['a'], ['b']] 1 0)).bind Undo = none ∧
    ((PasteLine { initial [['a'], ['b']] 0 0 with clipboard := [['x']] }).bind Undo).map
      Editor.buffer = some [['a'], ['a'], ['b']] := by
  decide

/-- C3 as stated fails: with the cursor on the last line of `["a","b"]`, `CutLine` moves the
cursor up to the new last line and `PasteLine` inserts before it, giving `["b","a"]`. -/
theorem C3_counterexample :
    ((CutLine (initial [['a'], ['b']] 1 0)).bind PasteLine).map Editor.buffer =
      some [['b'], ['a']] ∧
    (initial [['a'], ['b']] 1 0).buffer = [['a'], ['b']] := by
  decide

/-- C3 (amended): when the cursor line is in the buffer and is not its last line, `CutLine`
followed immediately by `PasteLine` returns and yields the original sequence of
lines. -/
theorem C3_CutLine_PasteLine_restores (s : Editor) (h0 : 0 ≤ s.currentLine)
    (h1 : s.currentLine + 1 < (s.buffer.length : Int)) :
    ∃ s1 s2, CutLine s = some s1 ∧ PasteLine s1 = some s2 ∧ s2.buffer = s.buffer := by
  obtain ⟨pre, l, post, hb, hc⟩ := split_at s.buffer s.currentLine h0 (by omega)
  have hpost : post ≠ [] := by
    intro h
    rw [hb, hc, h] at h1
    simp at h1
  obtain ⟨y, post1, rfl⟩ := List.exists_cons_of_ne_nil hpost
  have hcut := CutLine_split s pre (y :: post1) l hb hc
  rw [if_neg (by simp)] at hcut
  refine ⟨_, _, hcut, PasteLine_split _ pre post1 y rfl rfl (by simp), ?_⟩
  simp [hb]

/-- C3 (amended) on the buffer `["a","b","c"]` with the cursor on the middle line. -/
theorem C3_CutLine_PasteLine_restores_witness :
    ∃ s1 s2, CutLine (initial [['a'], ['b'], ['c']] 1 0) = some s1 ∧
      PasteLine s1 = some s2 ∧ s2.buffer = (initial [['a'], ['b'], ['c']] 1 0).buffer :=
  C3_CutLine_PasteLine_restores (initial [['a'], ['b'], ['c']] 1 0) (by decide) (by decide)

/-- With the cursor on the last of at least two lines, `CutLine` followed by `PasteLine`
swaps the last two lines. -/
theorem CutLine_PasteLine_last (s : Editor) (pre : List Line) (x l : Line)
    (hb : s.buffer = pre ++ [x, l]) (hc : s.currentLine = (pre.length : Int) + 1) :
    ∃ s1 s2, CutLine s = some s1 ∧ PasteLine s1 = some s2 ∧ s2.buffer = pre ++ [l, x] := by
  have hcut := CutLine_split s (pre ++ [x]) [] l (by simp [hb]) (by simp [hc])
  rw [if_pos rfl] at hcut
  refine ⟨_, _, hcut, PasteLine_split _ pre [] x (by simp) (by simp) (by simp), ?_⟩
  simp

/-- C8 (fails): cutting the only line `"abc"` leaves a buffer with no line at all and the
cursor line `-1`; the claim asks for one empty line and the cursor at (0,0). -/
theorem C8_CutLine_sole_line :
    CutLine (initial [['a', 'b', 'c']] 0 0) =
      some { initial [] (-1) 0 with
        undoStack := [(0, ['a', 'b', 'c'])], clipboard := [['a', 'b', 'c']] } ∧
    (CutLine (initial [['a', 'b', 'c']] 0 0)).map (fun s => s.buffer.length) = some 0 := by
  decide

/-- Cutting the only line of any one-line buffer empties the buffer and sets the cursor
line to `-1`, leaving the column as it was. -/
theorem CutLine_sole_line (s : Editor) (l : Line) (hb : s.buffer = [l])
    (hc : s.currentLine = 0) :
    ∃ s1, CutLine s = some s1 ∧ s1.buffer = [] ∧ s1.currentLine = -1 ∧
      s1.currentColumn = s.currentColumn ∧ s1.clipboard = [l] := by
  have hcut := CutLine_split s [] [] l (by simp [hb]) (by simp [hc])
  exact ⟨_, hcut, rfl, by simp, rfl, rfl⟩

/-- A non-empty pattern is no prefix of the empty text. -/
theorem isPrefixOf_nil_right (f : Line) (hf : f ≠ []) : f.isPrefixOf [] = false := by
  cases f with
  | nil => exact absurd rfl hf
  | cons a as => rfl

/-- A prefix is no longer than the text. -/
theorem isPrefixOf_length (f l : Line) (h : f.isPrefixOf l = true) : f.length ≤ l.length :=
  (List.isPrefixOf_iff_prefix.mp h).length_le

/-- A text that starts with the pattern is the pattern followed by the rest. -/
theorem isPrefixOf_eq_append (f l : Line) (h : f.isPrefixOf l = true) :
    l = f ++ l.drop f.length := by
  obtain ⟨t, ht⟩ := List.isPrefixOf_iff_prefix.mp h
  rw [← ht, List.drop_left]

/-- With a non-empty `find`, any step bound from the length of the line on gives the same
reference result. -/
theorem substituteAux_fuel (f r : Line) (hf : f ≠ []) (n m : Nat) (l : Line)
    (hn : l.length ≤ n) (hm : l.length ≤ m) :
    substituteAux f r n l = substituteAux f r m l := by
  induction n generalizing m l with
  | zero =>
    have : l = [] := List.eq_nil_of_length_eq_zero (by omega)
    subst this
    cases m <;> rfl
  | succ n ih =>
    cases l with
    | nil => cases m <;> rfl
    | cons c cs =>
      cases m with
      | zero => simp at hm
      | succ m =>
        simp only [substituteAux]
        have hpos : 0 < f.length := List.length_pos.mpr hf
        simp only [List.length_cons] at hn hm
        have hd : ((c :: cs).drop f.length).length ≤ cs.length := by
          rw [List.length_drop, List.length_cons]
          omega
        rw [ih m _ (by omega) (by omega), ih m cs (by omega) (by omega)]

/-- The reference substitution of the empty line. -/
theorem substituteAllSpec_nil (f r : Line) : substituteAllSpec f r [] = [] := rfl

/-- The reference substitution unfolds along the line. -/
theorem substituteAllSpec_cons (f r : Line) (hf : f ≠ []) (c : Char) (cs : Line) :
    substituteAllSpec f r (c :: cs) =
      if f.isPrefixOf (c :: cs) then r ++ substituteAllSpec f r ((c :: cs).drop f.length)
      else c :: substituteAllSpec f r cs := by
  have hpos : 0 < f.length := List.length_pos.mpr hf
  have hd : ((c :: cs).drop f.length).length ≤ cs.length := by
    rw [List.length_drop, List.length_cons]
    omega
  unfold substituteAllSpec
  simp only [List.length_cons, substituteAux]
  rw [substituteAux_fuel f r hf cs.length _ _ hd (le_refl _)]

/-- When `find` does not occur, the reference substitution keeps the line. -/
theorem substituteAllSpec_of_findAt_none (f r : Line) (hf : f ≠ []) (l : Line)
    (h : findAt f l = none) : substituteAllSpec f r l = l := by
  induction l with
  | nil => rfl
  | cons c cs ih =>
    unfold findAt at h
    split at h
    · cases h
    · rename_i hp
      rw [substituteAllSpec_cons f r hf, if_neg hp]
      cases hc : findAt f cs with
      | none => rw [ih hc]
      | some p => rw [hc] at h; cases h

/-- When the first occurrence of `find` is at offset `p`, the reference substitution keeps
the text before it, emits `replace`, and goes on after the occurrence. -/
theorem substituteAllSpec_of_findAt_some (f r : Line) (hf : f ≠ []) (l : Line) (p : Nat)
    (h : findAt f l = some p) :
    p + f.length ≤ l.length ∧
    substituteAllSpec f r l =
      l.take p ++ r ++ substituteAllSpec f r (l.drop (p + f.length)) := by
  induction l generalizing p with
  | nil =>
    unfold findAt at h
    rw [isPrefixOf_nil_right f hf] at h
    cases h
  | cons c cs ih =>
    unfold findAt at h
    split at h
    · rename_i hp
      cases h
      refine ⟨by simpa using isPrefixOf_length f _ hp, ?_⟩
      rw [substituteAllSpec_cons f r hf, if_pos hp]
      simp
    · rename_i hp
      cases hc : findAt f cs with
      | none => rw [hc] at h; cases h
      | some q =>
        rw [hc] at h
        cases h
        obtain ⟨hlen, heq⟩ := ih q hc
        refine ⟨by simp only [List.length_cons]; omega, ?_⟩
        rw [substituteAllSpec_cons f r hf, if_neg hp, heq]
        have : q + 1 + f.length = (q + f.length) + 1 := by omega
        rw [this]
        simp

/-- The library search on `done ++ rest` from the end of `done` is the search in `rest`. -/
theorem find_append (f done rest : Line) :
    find (done ++ rest) f done.length = (findAt f rest).map (· + done.length) := by
  unfold find
  rw [if_pos (by simp), List.drop_left]

/-- The loop of `Replace`, entered with the scan pointer after `done`, returns `done`
followed by the reference substitution of the rest of the line, as soon as the bound
exceeds the length of that rest. -/
theorem replaceLoop_append (f r : Line) (hf : f ≠ []) (fuel : Nat) (done rest : Line)
    (hfuel : rest.length < fuel) :
    replaceLoop f r fuel (done ++ rest) done.length =
      some (done ++ substituteAllSpec f r rest) := by
  induction fuel generalizing done rest with
  | zero => omega
  | succ fuel ih =>
    unfold replaceLoop
    rw [find_append]
    cases hc : findAt f rest with
    | none =>
      simp only [Option.map_none']
      rw [substituteAllSpec_of_findAt_none f r hf rest hc]
    | some p =>
      obtain ⟨hlen, heq⟩ := substituteAllSpec_of_findAt_some f r hf rest p hc
      have hpos : 0 < f.length := List.length_pos.mpr hf
      simp only [Option.map_some']
      have hline : (done ++ rest).take (p + done.length) ++ r ++
          (done ++ rest).drop (p + done.length + f.length) =
          (done ++ rest.take p ++ r) ++ rest.drop (p + f.length) := by
        have h1 : (done ++ rest).take (p + done.length) = done ++ rest.take p := by
          rw [Nat.add_comm, List.take_append]
        have h2 : (done ++ rest).drop (p + done.length + f.length) =
            rest.drop (p + f.length) := by
          have : p + done.length + f.length = done.length + (p + f.length) := by omega
          rw [this, List.drop_append]
        rw [h1, h2]
      have hpos2 : p + done.length + r.length = (done ++ rest.take p ++ r).length := by
        simp only [List.length_append, List.length_take]
        omega
      rw [hline, hpos2, ih _ _ (by rw [List.length_drop]; omega), heq]
      simp

/-- The loop over the lines returns the reference result for every line. -/
theorem replaceLines_eq (f r : Line) (hf : f ≠ []) (fuel : Nat) (buffer : List Line)
    (hfuel : ∀ line ∈ buffer, line.length < fuel) :
    replaceLines f r fuel buffer = some (buffer.map (substituteAllSpec f r)) := by
  induction buffer with
  | nil => rfl
  | cons line rest ih =>
    unfold replaceLines
    have h1 := replaceLoop_append f r hf fuel [] line (hfuel line (List.mem_cons_self _ _))
    simp only [List.nil_append, List.length_nil] at h1
    rw [h1]
    simp only
    rw [ih (fun l hl => hfuel l (List.mem_cons_of_mem _ hl))]
    rfl

/-- The bound `enoughFuel` exceeds the length of every line of the buffer. -/
theorem lt_enoughFuel (buffer : List Line) : ∀ line ∈ buffer, line.length < enoughFuel buffer := by
  intro line hl
  have := List.single_le_sum (l := buffer.map List.length) (fun _ _ => Nat.zero_le _)
    line.length (List.mem_map_of_mem _ hl)
  unfold enoughFuel
  omega

/-- C4: for a non-empty `find`, the substitution loop of `Replace` finishes and turns
every line of the buffer into the reference left-to-right non-overlapping replacement
(nothing else in the state changes); line "aaa" with find "a" and replace "aa" becomes
"aaaaaa". -/
theorem C4_Replace_is_reference (s : Editor) (findQuery replaceQuery : Line)
    (hf : findQuery ≠ []) :
    (∀ fuel, enoughFuel s.buffer ≤ fuel →
      Replace fuel s findQuery replaceQuery =
        some { s with buffer := s.buffer.map (substituteAllSpec findQuery replaceQuery) }) ∧
    replaceLoop ['a'] ['a', 'a'] 4 ['a', 'a', 'a'] 0 = some ['a', 'a', 'a', 'a', 'a', 'a'] ∧
    substituteAllSpec ['a'] ['a', 'a'] ['a', 'a', 'a'] = ['a', 'a', 'a', 'a', 'a', 'a'] := by
  refine ⟨?_, by decide, by decide⟩
  intro fuel hfuel
  unfold Replace
  rw [replaceLines_eq findQuery replaceQuery hf fuel s.buffer
    (fun l hl => lt_of_lt_of_le (lt_enoughFuel s.buffer l hl) hfuel)]

/-- C4 on the buffer `["aaa","ba"]` with find `"a"` and replace `"aa"`. -/
theorem C4_Replace_is_reference_witness :
    (∀ fuel, enoughFuel (initial [['a', 'a', 'a'], ['b', 'a']] 0 0).buffer ≤ fuel →
      Replace fuel (initial [['a', 'a', 'a'], ['b', 'a']] 0 0) ['a'] ['a', 'a'] =
        some { initial [['a', 'a', 'a'], ['b', 'a']] 0 0 with
          buffer := (initial [['a', 'a', 'a'], ['b', 'a']] 0 0).buffer.map
            (substituteAllSpec ['a'] ['a', 'a']) }) ∧
    replaceLoop ['a'] ['a', 'a'] 4 ['a', 'a', 'a'] 0 = some ['a', 'a', 'a', 'a', 'a', 'a'] ∧
    substituteAllSpec ['a'] ['a', 'a'] ['a', 'a', 'a'] = ['a', 'a', 'a', 'a', 'a', 'a'] :=
  C4_Replace_is_reference (initial [['a', 'a', 'a'], ['b', 'a']] 0 0) ['a'] ['a', 'a']
    (by decide)

/-- The empty pattern is found at offset 0. -/
theorem findAt_nil (l : Line) : findAt [] l = some 0 := by
  cases l <;> rfl

/-- With an empty `find` the loop of `Replace` never reaches its exit: the search succeeds
at the scan pointer every time, so no bound is enough. -/
theorem replaceLoop_empty_find (r : Line) (fuel : Nat) (line : Line) (pos : Nat)
    (hpos : pos ≤ line.length) : replaceLoop [] r fuel line pos = none := by
  induction fuel generalizing line pos with
  | zero => rfl
  | succ fuel ih =>
    unfold replaceLoop
    have hfind : find line [] pos = some pos := by
      unfold find
      rw [if_pos hpos, findAt_nil]
      simp
    rw [hfind]
    simp only
    apply ih
    simp only [List.length_append, List.length_take, List.length_drop, List.length_nil]
    omega

/-- With an empty `find` and at least one line in the buffer, `Replace` does not return. -/
theorem Replace_empty_find (fuel : Nat) (s : Editor) (r : Line) (h : s.buffer ≠ []) :
    Replace fuel s [] r = none := by
  obtain ⟨line, rest, hb⟩ := List.exists_cons_of_ne_nil h
  unfold Replace
  rw [hb]
  unfold replaceLines
  rw [replaceLoop_empty_find r fuel line 0 (Nat.zero_le _)]

/-- C5 (fails): with the empty find pattern nothing is rejected; on the buffer `["abc"]`
with replace text `"x"` the substitution loop is still running after any number of
iterations, so `Replace` never returns. -/
theorem C5_Replace_empty_find_runs_forever (fuel : Nat) :
    Replace fuel (initial [['a', 'b', 'c']] 0 0) [] ['x'] = none :=
  Replace_empty_find fuel _ _ (by decide)

/-- C6 (fails on the cursor line): `Search` scans the cursor line from column 0, not from
the cursor column. In `["abcab"]` with the cursor at (0,3) the query `"ab"` occurs at
column 3, yet the cursor is set to (0,0); the example of the claim gives (1,0). -/
theorem C6_Search_ignores_cursor_column :
    Search (initial [['a', 'b', 'c', 'a', 'b']] 0 3) ['a', 'b'] =
      (initial [['a', 'b', 'c', 'a', 'b']] 0 0, true) ∧
    find ['a', 'b', 'c', 'a', 'b'] ['a', 'b'] 3 = some 3 ∧
    Search (initial [['d', 'o', 'g'], ['c', 'a', 't', 'h', 'e', 'd', 'r', 'a', 'l'],
        ['c', 'a', 't']] 0 0) ['c', 'a', 't'] =
      (initial [['d', 'o', 'g'], ['c', 'a', 't', 'h', 'e', 'd', 'r', 'a', 'l'],
        ['c', 'a', 't']] 1 0, true) := by
  decide

/-- A successful search ends at an occurrence of the pattern. -/
theorem findAt_some_prefix (q l : Line) (p : Nat) (h : findAt q l = some p) :
    q <+: l.drop p := by
  induction l generalizing p with
  | nil =>
    unfold findAt at h
    split at h
    · rename_i hp
      cases h
      exact List.isPrefixOf_iff_prefix.mp hp
    · cases h
  | cons c cs ih =>
    unfold findAt at h
    split at h
    · rename_i hp
      cases h
      exact List.isPrefixOf_iff_prefix.mp hp
    · cases hc : findAt q cs with
      | none => rw [hc] at h; cases h
      | some p1 =>
        rw [hc] at h
        cases h
        exact ih p1 hc

/-- The search fails on a line that does not contain the pattern. -/
theorem findAt_none_of_absent (q l : Line) (h : ¬ q <:+: l) : findAt q l = none := by
  cases hc : findAt q l with
  | none => rfl
  | some p =>
    exfalso
    apply h
    obtain ⟨t, ht⟩ := findAt_some_prefix q l p hc
    refine ⟨l.take p, t, ?_⟩
    rw [List.append_assoc, ht, List.take_append_drop]

/-- The search fails only on a line that does not contain the pattern. -/
theorem absent_of_findAt_none (q l : Line) (h : findAt q l = none) : ¬ q <:+: l := by
  induction l with
  | nil =>
    intro hin
    unfold findAt at h
    split at h
    · cases h
    · rename_i hp
      apply hp
      have : q = [] := List.eq_nil_of_infix_nil hin
      subst this
      rfl
  | cons c cs ih =>
    unfold findAt at h
    split at h
    · cases h
    · rename_i hp
      have hcs : findAt q cs = none := by
        cases hc : findAt q cs with
        | none => rfl
        | some p => rw [hc] at h; cases h
      intro hin
      rcases List.infix_cons_iff.mp hin with hpre | hin2
      · exact hp (List.isPrefixOf_iff_prefix.mpr hpre)
      · exact ih hcs hin2

/-- The library search from position 0 is the search in the whole line. -/
theorem find_zero (l q : Line) : find l q 0 = findAt q l := by
  unfold find
  rw [if_pos (Nat.zero_le _), List.drop_zero]
  cases findAt q l <;> rfl

/-- The scan of `Search` finds nothing when no scanned line contains the query. -/
theorem searchLines_none (q : Line) (cl : Int) (lines : List Line) (i : Int)
    (h : ∀ l ∈ lines, ¬ q <:+: l) : searchLines q cl (-1) lines i = none := by
  induction lines generalizing i with
  | nil => rfl
  | cons l rest ih =>
    unfold searchLines
    have hstart : (if i = cl ∧ (-1 : Int) ≠ -1 then (-1 : Int) + 1 else 0) = 0 := by simp
    simp only [hstart, Int.toNat_zero, find_zero]
    rw [findAt_none_of_absent q l (h l (List.mem_cons_self _ _))]
    exact ih (i + 1) (fun l1 hl1 => h l1 (List.mem_cons_of_mem _ hl1))

/-- The scan of `Search` only reports lines at or after the one it starts with. -/
theorem searchLines_some_ge (q : Line) (cl sp : Int) (lines : List Line) (i j p : Int)
    (h : searchLines q cl sp lines i = some (j, p)) : i ≤ j := by
  induction lines generalizing i with
  | nil => cases h
  | cons l rest ih =>
    unfold searchLines at h
    simp only at h
    split at h
    · cases h
      exact le_refl _
    · have := ih (i + 1) h
      omega

/-- C7: `Search` never wraps around. If no line with index at or after `currentLine`
contains the query, it reports not-found and leaves the whole state, cursor included,
unchanged, whatever the earlier lines hold; and the cursor line after `Search` is never
before the cursor line it started from. -/
theorem C7_Search_no_wraparound (s : Editor) (q : Line) :
    ((∀ (i : Nat) (l : Line), s.currentLine ≤ (i : Int) → s.buffer[i]? = some l →
        ¬ q <:+: l) → Search s q = (s, false)) ∧
    s.currentLine ≤ (Search s q).1.currentLine := by
  constructor
  · intro h
    unfold Search
    simp only
    split
    · rfl
    · rename_i hneg
      rw [searchLines_none]
      intro l hl
      obtain ⟨k, hk⟩ := List.getElem?_of_mem hl
      rw [List.getElem?_drop] at hk
      exact h (s.currentLine.toNat + k) l (by omega) hk
  · unfold Search
    simp only
    split
    · exact le_refl _
    · split
      · rename_i i pos hs
        exact searchLines_some_ge _ _ _ _ _ _ _ hs
      · exact le_refl _

/-- C7 on the buffer `["cat","dog"]` with the cursor on the second line and the query
`"cat"`, which only the first line contains. -/
theorem C7_Search_no_wraparound_witness :
    Search (initial [['c', 'a', 't'], ['d', 'o', 'g']] 1 2) ['c', 'a', 't'] =
      (initial [['c', 'a', 't'], ['d', 'o', 'g']] 1 2, false) ∧
    (initial [['c', 'a', 't'], ['d', 'o', 'g']] 1 2).currentLine ≤
      (Search (initial [['c', 'a', 't'], ['d', 'o', 'g']] 1 2) ['c', 'a', 't']).1.currentLine :=
  ⟨(C7_Search_no_wraparound (initial [['c', 'a', 't'], ['d', 'o', 'g']] 1 2)
      ['c', 'a', 't']).1 (by
        intro i l hi hl
        match i, hi, hl with
        | 0, hi, _ => exact absurd hi (by decide)
        | 1, _, hl =>
          cases hl
          decide
        | k + 2, _, hl => cases hl),
   (C7_Search_no_wraparound (initial [['c', 'a', 't'], ['d', 'o', 'g']] 1 2)
      ['c', 'a', 't']).2⟩

/-- The command `e <path>` sets the file name and calls `LoadFile` with it. -/
theorem ProcessCommand_e (env : Env) (fs : FileSystem) (s : Editor) (path : Line) :
    ProcessCommand env fs s ('e' :: ' ' :: path) =
      Outcome.next (LoadFile fs { s with filename := path } path) fs := by
  unfold ProcessCommand
  simp

/-- C9: when the path cannot be opened, `LoadFile` returns the state it was given, and the
command `e <path>` returns with the buffer exactly as it was (only the file name is
set). -/
theorem C9_LoadFile_unopenable (env : Env) (fs : FileSystem) (s : Editor) (path : Line)
    (h : fs path = none) :
    LoadFile fs s path = s ∧
    ProcessCommand env fs s ('e' :: ' ' :: path) =
      Outcome.next { s with filename := path } fs ∧
    ((ProcessCommand env fs s ('e' :: ' ' :: path)).state?).map Editor.buffer =
      some s.buffer := by
  have hl : ∀ t : Editor, LoadFile fs t path = t := by
    intro t
    unfold LoadFile
    rw [h]
  refine ⟨hl s, ?_, ?_⟩
  · rw [ProcessCommand_e, hl]
  · rw [ProcessCommand_e, hl]
    rfl

/-- C9 for the path `g`, which the file system `oneFile` does not hold. -/
theorem C9_LoadFile_unopenable_witness :
    LoadFile oneFile (initial [['a'], ['b']] 1 0) ['g'] = initial [['a'], ['b']] 1 0 ∧
    ProcessCommand quietEnv oneFile (initial [['a'], ['b']] 1 0) ('e' :: ' ' :: ['g']) =
      Outcome.next { initial [['a'], ['b']] 1 0 with filename := ['g'] } oneFile ∧
    ((ProcessCommand quietEnv oneFile (initial [['a'], ['b']] 1 0)
        ('e' :: ' ' :: ['g'])).state?).map Editor.buffer =
      some (initial [['a'], ['b']] 1 0).buffer :=
  C9_LoadFile_unopenable quietEnv oneFile (initial [['a'], ['b']] 1 0) ['g'] (by decide)

/-- C10 as stated fails: from the cursor (1,1) with one entry on each stack, the command
`e f` loads the two lines of `f` and leaves the cursor at (1,1) and both entries on their
stacks. -/
theorem C10_counterexample :
    ((ProcessCommand quietEnv oneFile
        { initial [['a'], ['b', 'c']] 1 1 with
          undoStack := [(0, ['z'])], redoStack := [(1, ['w'])] }
        ['e', ' ', 'f']).state?).map
      (fun s => (s.buffer, s.currentLine, s.currentColumn, s.undoStack, s.redoStack)) =
    some ([['x'], ['y']], 1, 1, [(0, ['z'])], [(1, ['w'])]) := by
  rw [ProcessCommand_e]
  rfl

/-- C10 (amended): for every state and every path that can be opened, the command
`e <path>` returns with the buffer replaced by the lines of that file and the file name set
to the path; the cursor, both stacks, the clipboard and the mode are as they were. -/
theorem C10_e_replaces_buffer_only (env : Env) (fs : FileSystem) (s : Editor)
    (path : Line) (content : List Char) (h : fs path = some content) :
    ProcessCommand env fs s ('e' :: ' ' :: path) =
      Outcome.next { s with filename := path, buffer := readLines content } fs := by
  rw [ProcessCommand_e]
  unfold LoadFile
  rw [h]

/-- C10 (amended) for the file `f` of `oneFile`, from a state with the cursor at (1,1) and
one undo entry. -/
theorem C10_e_replaces_buffer_only_witness :
    ProcessCommand quietEnv oneFile
        { initial [['a'], ['b', 'c']] 1 1 with undoStack := [(0, ['z'])] }
        ('e' :: ' ' :: ['f']) =
      Outcome.next
        { { initial [['a'], ['b', 'c']] 1 1 with undoStack := [(0, ['z'])] } with
          filename := ['f'], buffer := readLines ['x', '\n', 'y', '\n'] } oneFile :=
  C10_e_replaces_buffer_only quietEnv oneFile _ ['f'] ['x', '\n', 'y', '\n'] (by decide)

/-- Writing one line leaves the other lines as they were. -/
theorem at?_set_ne (b : List Line) (line j : Int) (text : Line) (h0 : 0 ≤ line)
    (hj : j ≠ line) : at? (b.set line.toNat text) j = at? b j := by
  unfold at?
  split
  · rfl
  · rename_i hneg
    rw [List.getElem?_set_ne]
    omega

/-- C12 as stated fails: the keys `j`, `d`, `d` on `["a","b"]` lead to a one-line buffer with
the entry `(1, "b")` on top of the undo stack; there `Undo` does not pop the entry and
write a line, it indexes the buffer at line 1, outside it. -/
theorem C12_counterexample :
    (run quietEnv (Session.start (initial [['a'], ['b']] 0 0) oneFile)
        [key 'j', key 'd', key 'd']).editor? =
      some { initial [['a']] 0 0 with undoStack := [(1, ['b'])], clipboard := [['b']] } ∧
    Undo { initial [['a']] 0 0 with undoStack := [(1, ['b'])], clipboard := [['b']] } =
      none := by
  constructor
  · rfl
  · decide

/-- C12 (amended): `Undo` with an empty undo stack and `Redo` with an empty redo stack
return the state they were given, nothing changed. With the entry `(line, text)` on top
of the undo stack and `line` inside the buffer (`0 ≤ line < buffer.size()`), `Undo`
returns: it pops the entry, pushes `(line, cur)` on the redo stack, where `cur` is the
present text of that line, and writes `text` to that line; the buffer keeps its length,
the line reads `text`, every other line reads as before, and cursor, clipboard and mode
are untouched. -/
theorem C12_Undo_Redo_contract (s : Editor) :
    (s.undoStack = [] → Undo s = some s) ∧
    (s.redoStack = [] → Redo s = some s) ∧
    (∀ (line : Int) (text : Line) (rest : List (Int × Line)),
      s.undoStack = (line, text) :: rest → 0 ≤ line → line < (s.buffer.length : Int) →
        ∃ cur : Line, at? s.buffer line = some cur ∧
          Undo s = some { s with undoStack := rest,
                                 redoStack := (line, cur) :: s.redoStack,
                                 buffer := s.buffer.set line.toNat text } ∧
          (s.buffer.set line.toNat text).length = s.buffer.length ∧
          at? (s.buffer.set line.toNat text) line = some text ∧
          ∀ j : Int, j ≠ line → at? (s.buffer.set line.toNat text) j = at? s.buffer j) := by
  refine ⟨?_, ?_, ?_⟩
  · intro h
    unfold Undo
    rw [h]
  · intro h
    unfold Redo
    rw [h]
  · intro line text rest hu h0 h1
    obtain ⟨cur, hcur⟩ := at?_isSome s.buffer h0 h1
    refine ⟨cur, hcur, ?_, List.length_set _ _ _, ?_, ?_⟩
    · unfold Undo
      rw [hu]
      simp only [hcur]
    · rw [at?_of_nonneg _ h0]
      have hlt : line.toNat < s.buffer.length := by omega
      simp [hlt]
    · intro j hj
      exact at?_set_ne s.buffer line j text h0 hj

/-- C12 (amended) on a state with empty stacks, and on the buffer `["a","b"]` with the
entry `(1, "x")` on the undo stack. -/
theorem C12_Undo_Redo_contract_witness :
    Undo (initial [['a'], ['b']] 0 0) = some (initial [['a'], ['b']] 0 0) ∧
    Redo (initial [['a'], ['b']] 0 0) = some (initial [['a'], ['b']] 0 0) ∧
    ∃ cur : Line,
      at? ({ initial [['a'], ['b']] 0 0 with undoStack := [(1, ['x'])] } : Editor).buffer 1 =
        some cur ∧
      Undo { initial [['a'], ['b']] 0 0 with undoStack := [(1, ['x'])] } =
        some { { initial [['a'], ['b']] 0 0 with undoStack := [(1, ['x'])] } with
          undoStack := [], redoStack := [(1, cur)],
          buffer := [['a'], ['b']].set 1 ['x'] } :=
  ⟨(C12_Undo_Redo_contract (initial [['a'], ['b']] 0 0)).1 rfl,
   (C12_Undo_Redo_contract (initial [['a'], ['b']] 0 0)).2.1 rfl,
   (((C12_Undo_Redo_contract { initial [['a'], ['b']] 0 0 with undoStack := [(1, ['x'])] }).2.2
      1 ['x'] [] rfl (by decide) (by decide)).imp fun _ h => ⟨h.1, h.2.1⟩)⟩

/-- C16: for a non-empty find text the loop of `Replace` on one line ends: it has returned
once its condition has been evaluated `line.length + 1` times, with the same result for
every larger bound, whatever the replace text is. -/
theorem C16_replaceLoop_terminates (findQuery replaceQuery line : Line)
    (hf : findQuery ≠ []) :
    ∃ result, ∀ fuel, line.length + 1 ≤ fuel →
      replaceLoop findQuery replaceQuery fuel line 0 = some result := by
  refine ⟨substituteAllSpec findQuery replaceQuery line, ?_⟩
  intro fuel hfuel
  have h := replaceLoop_append findQuery replaceQuery hf fuel [] line (by omega)
  simpa using h

/-- C16 for find `"a"` in the line `"aaa"` with the replace text `"aa"`, which contains the
find text. -/
theorem C16_replaceLoop_terminates_witness :
    ∃ result, ∀ fuel, ['a', 'a', 'a'].length + 1 ≤ fuel →
      replaceLoop ['a'] ['a', 'a'] fuel ['a', 'a', 'a'] 0 = some result :=
  C16_replaceLoop_terminates ['a'] ['a', 'a'] ['a', 'a', 'a'] (by decide)

/-- A session that waits at the top of the loop is not changed by setting its place to
the top of the loop. -/
theorem Session.pc_main_eta (σ : Session) (h : σ.pc = Pc.main) :
    { σ with pc := Pc.main } = σ := by
  cases σ
  simp_all

/-- C17: in Normal mode, at the top of the input loop, the key `d` followed by any key `k`
other than `d` leaves the session exactly as it was, and the keys after `k` are handled
as if the two had not been typed: `k` is consumed and not read as a command. The same
holds for `y` followed by a key other than `y`. -/
theorem C17_composite_cancel (env : Env) (σ : Session) (k : Int) (rest : List Int)
    (hpc : σ.pc = Pc.main) (hrun : σ.ed.running = true)
    (hmode : σ.ed.currentMode = Mode.NORMAL) :
    (k ≠ key 'd' → run env σ [key 'd', k] = Run.waiting σ ∧
      run env σ (key 'd' :: k :: rest) = run env σ rest) ∧
    (k ≠ key 'y' → run env σ [key 'y', k] = Run.waiting σ ∧
      run env σ (key 'y' :: k :: rest) = run env σ rest) := by
  have hd : step env σ (key 'd') = Run.waiting { σ with pc := Pc.pendingD } := by
    unfold step
    rw [hpc]
    simp only [hrun, hmode]
    unfold normalKey
    simp [key]
  have hy : step env σ (key 'y') = Run.waiting { σ with pc := Pc.pendingY } := by
    unfold step
    rw [hpc]
    simp only [hrun, hmode]
    unfold normalKey
    simp [key]
  constructor
  · intro hk
    have h2 : step env { σ with pc := Pc.pendingD } k = Run.waiting σ := by
      unfold step
      simp only
      rw [if_neg hk]
      exact congrArg Run.waiting (Session.pc_main_eta σ hpc)
    constructor
    · simp only [run, hd, h2]
    · simp only [run, hd, h2]
  · intro hk
    have h2 : step env { σ with pc := Pc.pendingY } k = Run.waiting σ := by
      unfold step
      simp only
      rw [if_neg hk]
      exact congrArg Run.waiting (Session.pc_main_eta σ hpc)
    constructor
    · simp only [run, hy, h2]
    · simp only [run, hy, h2]

/-- C17 for the keys `d`, `i` and `y`, `i` on a fresh session: the mode stays Normal. -/
theorem C17_composite_cancel_witness :
    (run quietEnv (Session.start (initial [['a']] 0 0) oneFile) [key 'd', key 'i'] =
        Run.waiting (Session.start (initial [['a']] 0 0) oneFile) ∧
      run quietEnv (Session.start (initial [['a']] 0 0) oneFile)
          (key 'd' :: key 'i' :: [key 'l']) =
        run quietEnv (Session.start (initial [['a']] 0 0) oneFile) [key 'l']) ∧
    (run quietEnv (Session.start (initial [['a']] 0 0) oneFile) [key 'y', key 'i'] =
        Run.waiting (Session.start (initial [['a']] 0 0) oneFile) ∧
      run quietEnv (Session.start (initial [['a']] 0 0) oneFile)
          (key 'y' :: key 'i' :: [key 'l']) =
        run quietEnv (Session.start (initial [['a']] 0 0) oneFile) [key 'l']) :=
  ⟨(C17_composite_cancel quietEnv (Session.start (initial [['a']] 0 0) oneFile) (key 'i')
      [key 'l'] rfl rfl rfl).1 (by decide),
   (C17_composite_cancel quietEnv (Session.start (initial [['a']] 0 0) oneFile) (key 'i')
      [key 'l'] rfl rfl rfl).2 (by decide)⟩

/-- A line without newline, written with a newline after it, is read back as one line. -/
theorem readLines_line (l : Line) (rest : List Char) (h : '\n' ∉ l) :
    readLines (l ++ '\n' :: rest) = l :: readLines rest := by
  induction l with
  | nil => simp [readLines]
  | cons c cs ih =>
    have hc : c ≠ '\n' := fun e => h (by rw [e]; exact List.mem_cons_self _ _)
    have hcs : '\n' ∉ cs := fun e => h (List.mem_cons_of_mem _ e)
    show readLines (c :: (cs ++ '\n' :: rest)) = (c :: cs) :: readLines rest
    rw [readLines, if_neg hc, ih hcs]

/-- Reading back what `SaveFile` writes gives the buffer, when no line holds a newline. -/
theorem readLines_savedText (buffer : List Line) (h : ∀ l ∈ buffer, '\n' ∉ l) :
    readLines (savedText buffer) = buffer := by
  induction buffer with
  | nil => rfl
  | cons l rest ih =>
    unfold savedText
    rw [readLines_line l _ (h l (List.mem_cons_self _ _)),
      ih (fun l1 hl1 => h l1 (List.mem_cons_of_mem _ hl1))]

/-- C20: when no line of the buffer holds a newline character, the lines read from the text
that `SaveFile` writes are the buffer itself, in order; and `LoadFile` on a path that
`SaveFile` has just written puts exactly the saved buffer into the editor. -/
theorem C20_save_load_round_trip (s : Editor) (h : ∀ l ∈ s.buffer, '\n' ∉ l) :
    readLines (savedText s.buffer) = s.buffer ∧
    ∀ (writable : Line → Bool) (fs : FileSystem) (t : Editor) (filename : Line),
      writable filename = true →
      LoadFile (SaveFile writable fs s filename) t filename = { t with buffer := s.buffer } := by
  refine ⟨readLines_savedText s.buffer h, ?_⟩
  intro writable fs t filename hw
  unfold LoadFile SaveFile
  simp only [hw, if_true]
  rw [readLines_savedText s.buffer h]

/-- C20 on the buffer `["ab","","c"]`, which has an empty line in the middle. -/
theorem C20_save_load_round_trip_witness :
    readLines (savedText (initial [['a', 'b'], [], ['c']] 0 0).buffer) =
      (initial [['a', 'b'], [], ['c']] 0 0).buffer ∧
    ∀ (writable : Line → Bool) (fs : FileSystem) (t : Editor) (filename : Line),
      writable filename = true →
      LoadFile (SaveFile writable fs (initial [['a', 'b'], [], ['c']] 0 0) filename) t filename =
        { t with buffer := (initial [['a', 'b'], [], ['c']] 0 0).buffer } :=
  C20_save_load_round_trip (initial [['a', 'b'], [], ['c']] 0 0) (by decide)

/-- C13: a command that is none of `w`, `q`, `u`, `r`, `/`, `n`, `N`, `:s` and does not
start with `e ` makes `ProcessCommand` return with the editor state and the file system
exactly as they were; and Enter in Command mode with such a command in the accumulator
leaves everything as it was except that the mode is Normal and the accumulator is
empty. -/
theorem C13_unrecognized_command (env : Env) (command : Line)
    (h : command ∉ [['w'], ['q'], ['u'], ['r'], ['/'], ['n'], ['N'], [':', 's']])
    (he : command.take 2 ≠ ['e', ' ']) :
    (∀ (fs : FileSystem) (s : Editor), ProcessCommand env fs s command = Outcome.next s fs) ∧
    ∀ σ : Session, σ.pc = Pc.main → σ.ed.running = true →
      σ.ed.currentMode = Mode.COMMAND → σ.commandBuffer = command →
      step env σ (key '\r') =
        Run.waiting { σ with ed := { σ.ed with currentMode := Mode.NORMAL },
                             commandBuffer := [] } := by
  have hP : ∀ (fs : FileSystem) (s : Editor),
      ProcessCommand env fs s command = Outcome.next s fs := by
    intro fs s
    simp only [List.mem_cons, List.mem_singleton, List.not_mem_nil, or_false, not_or] at h
    obtain ⟨h1, h2, h3, h4, h5, h6, h7, h8⟩ := h
    unfold ProcessCommand
    rw [if_neg h1, if_neg h2, if_neg h3, if_neg h4, if_neg h5, if_neg h6, if_neg h7,
      if_neg h8, if_neg he]
  refine ⟨hP, ?_⟩
  intro σ hpc hrun hmode hcmd
  unfold step
  rw [hpc]
  simp only [hrun, hmode]
  unfold commandKey
  rw [if_pos rfl, hcmd, hP]
  unfold Run.ofOutcome
  cases σ
  simp_all

/-- C13 for the command `zz` and the empty command, on a session in Command mode that holds
the command in its accumulator. -/
theorem C13_unrecognized_command_witness :
    ProcessCommand quietEnv oneFile (initial [['a']] 0 0) ['z', 'z'] =
      Outcome.next (initial [['a']] 0 0) oneFile ∧
    step quietEnv
        { ed := { initial [['a']] 0 0 with currentMode := Mode.COMMAND }, fs := oneFile,
          commandBuffer := [], pc := Pc.main } (key '\r') =
      Run.waiting
        { ed := { initial [['a']] 0 0 with currentMode := Mode.NORMAL }, fs := oneFile,
          commandBuffer := [], pc := Pc.main } :=
  ⟨(C13_unrecognized_command quietEnv ['z', 'z'] (by decide) (by decide)).1 oneFile
      (initial [['a']] 0 0),
   (C13_unrecognized_command quietEnv [] (by decide) (by decide)).2
      { ed := { initial [['a']] 0 0 with currentMode := Mode.COMMAND }, fs := oneFile,
        commandBuffer := [], pc := Pc.main } rfl rfl rfl rfl⟩

/-- The test `cursorOk` decides the cursor invariant. -/
theorem cursorOk_iff (s : Editor) : cursorOk s = true ↔ CursorValid s := by
  unfold cursorOk CursorValid
  constructor
  · intro h
    split at h
    · cases h
    · rename_i l hl
      obtain ⟨h0, h1⟩ := at?_some_bounds hl
      simp only [decide_eq_true_eq] at h
      exact ⟨h0, h1, h.1, l, hl, h.2⟩
  · rintro ⟨_, _, hc0, l, hl, hc1⟩
    rw [hl]
    simp only [decide_eq_true_eq]
    exact ⟨hc0, hc1⟩

/-- Insert-mode character insertion keeps the cursor invariant. -/
theorem InsertChar_cursorValid (s : Editor) (ch : Int) (hv : CursorValid s) :
    ∃ s1, InsertChar s ch = some s1 ∧ CursorValid s1 := by
  obtain ⟨s1, l, hl, hI, _, hb, _, hline, hcol⟩ := InsertChar_eq s ch hv
  obtain ⟨h0, h1, hc0, l2, hl2, hc1⟩ := hv
  rw [hl] at hl2
  cases hl2
  have hlt : s.currentLine.toNat < s.buffer.length := by omega
  refine ⟨s1, hI, ?_, ?_, ?_,
    l.take s.currentColumn.toNat ++ [toChar ch] ++ l.drop s.currentColumn.toNat, ?_, ?_⟩
  · rw [hline]; exact h0
  · rw [hline, hb, List.length_set]; exact h1
  · rw [hcol]; omega
  · rw [hline, hb, at?_of_nonneg _ h0, List.getElem?_set_self hlt]
  · rw [hcol]
    simp only [List.length_append, List.length_take, List.length_drop, List.length_cons,
      List.length_nil]
    omega

/-- Insert-mode backspace keeps the cursor invariant. -/
theorem Backspace_cursorValid (s : Editor) (hv : CursorValid s) :
    ∃ s1, Backspace s = some s1 ∧ CursorValid s1 := by
  by_cases hcol : 0 < s.currentColumn
  · obtain ⟨s1, l, hl, hB, _, hb, _, hline, hcol1⟩ := Backspace_eq s hv hcol
    obtain ⟨h0, h1, hc0, l2, hl2, hc1⟩ := hv
    rw [hl] at hl2
    cases hl2
    have hlt : s.currentLine.toNat < s.buffer.length := by omega
    refine ⟨s1, hB, ?_, ?_, ?_,
      l.take (s.currentColumn - 1).toNat ++ l.drop ((s.currentColumn - 1).toNat + 1), ?_, ?_⟩
    · rw [hline]; exact h0
    · rw [hline, hb, List.length_set]; exact h1
    · rw [hcol1]; omega
    · rw [hline, hb, at?_of_nonneg _ h0, List.getElem?_set_self hlt]
    · rw [hcol1]
      simp only [List.length_append, List.length_take, List.length_drop]
      omega
  · refine ⟨s, ?_, hv⟩
    obtain ⟨_, _, _, l, hl, _⟩ := hv
    unfold Backspace
    simp only [hl]
    rw [if_neg (fun h => hcol h.2)]

/-- A successful search ends inside the text. -/
theorem findAt_some_le (q l : Line) (p : Nat) (h : findAt q l = some p) : p ≤ l.length := by
  induction l generalizing p with
  | nil =>
    unfold findAt at h
    split at h
    · cases h; exact Nat.le_refl _
    · cases h
  | cons c cs ih =>
    unfold findAt at h
    split at h
    · cases h; exact Nat.zero_le _
    · cases hc : findAt q cs with
      | none => rw [hc] at h; cases h
      | some p1 =>
        rw [hc] at h
        cases h
        have := ih p1 hc
        simp only [List.length_cons]
        omega

/-- A match reported by the scan of `Search` lies on a scanned line and inside it. -/
theorem searchLines_some_spec (q : Line) (cl : Int) (lines : List Line) (i j p : Int)
    (h : searchLines q cl (-1) lines i = some (j, p)) :
    ∃ (k : Nat) (l : Line), lines[k]? = some l ∧ j = i + (k : Int) ∧ 0 ≤ p ∧
      p ≤ (l.length : Int) := by
  induction lines generalizing i with
  | nil => cases h
  | cons l rest ih =>
    unfold searchLines at h
    have hstart : (if i = cl ∧ (-1 : Int) ≠ -1 then (-1 : Int) + 1 else 0) = 0 := by simp
    simp only [hstart, Int.toNat_zero, find_zero] at h
    cases hf : findAt q l with
    | none =>
      rw [hf] at h
      obtain ⟨k, l1, hk, hj, hp⟩ := ih (i + 1) h
      refine ⟨k + 1, l1, by simpa using hk, ?_, hp⟩
      push_cast
      omega
    | some pos =>
      rw [hf] at h
      simp only [Option.some.injEq, Prod.mk.injEq] at h
      obtain ⟨rfl, rfl⟩ := h
      have := findAt_some_le q l pos hf
      exact ⟨0, l, by simp, by simp, by omega, by omega⟩

/-- The function `Search` keeps the cursor invariant, whether it finds the query or not. -/
theorem Search_cursorValid (s : Editor) (q : Line) (hv : CursorValid s) :
    CursorValid (Search s q).1 ∧ (Search s q).1.buffer = s.buffer := by
  obtain ⟨h0, h1, hc0, l, hl, hc1⟩ := hv
  unfold Search
  simp only
  rw [if_neg (by omega)]
  split
  · rename_i i pos hs
    obtain ⟨k, l1, hk, hj, hp0, hp1⟩ := searchLines_some_spec _ _ _ _ _ _ hs
    rw [List.getElem?_drop] at hk
    have hlt : s.currentLine.toNat + k < s.buffer.length := (List.getElem?_eq_some.mp hk).1
    refine ⟨⟨?_, ?_, hp0, l1, ?_, hp1⟩, rfl⟩
    · show 0 ≤ i
      omega
    · show i < (s.buffer.length : Int)
      omega
    · show at? s.buffer i = some l1
      rw [at?_of_nonneg _ (by omega)]
      have : i.toNat = s.currentLine.toNat + k := by omega
      rw [this]
      exact hk
  · exact ⟨⟨h0, h1, hc0, l, hl, hc1⟩, rfl⟩

/-- C14 (fails for five of the eight operations): from states with a valid cursor,
`CutLine`, `PasteLine`, `Undo`, `Redo` and `Replace` each return a state whose column lies
beyond the end of the cursor line, because none of them touches the column. -/
theorem C14_cursor_not_preserved :
    (cursorOk (initial [['a', 'b', 'c'], ['d']] 0 3) = true ∧
      CutLine (initial [['a', 'b', 'c'], ['d']] 0 3) =
        some { initial [['d']] 0 3 with
          undoStack := [(0, ['a', 'b', 'c'])], clipboard := [['a', 'b', 'c']] } ∧
      (CutLine (initial [['a', 'b', 'c'], ['d']] 0 3)).map cursorOk = some false) ∧
    (cursorOk { initial [['a', 'b', 'c']] 0 3 with clipboard := [['x']] } = true ∧
      (PasteLine { initial [['a', 'b', 'c']] 0 3 with clipboard := [['x']] }).map
        (fun s => (s.buffer, s.currentLine, s.currentColumn, cursorOk s)) =
        some ([['x'], ['a', 'b', 'c']], 0, 3, false)) ∧
    (cursorOk { initial [['a', 'b']] 0 2 with undoStack := [(0, ['a'])] } = true ∧
      (Undo { initial [['a', 'b']] 0 2 with undoStack := [(0, ['a'])] }).map
        (fun s => (s.buffer, s.currentLine, s.currentColumn, cursorOk s)) =
        some ([['a']], 0, 2, false)) ∧
    (cursorOk { initial [['a', 'b']] 0 2 with redoStack := [(0, ['a'])] } = true ∧
      (Redo { initial [['a', 'b']] 0 2 with redoStack := [(0, ['a'])] }).map
        (fun s => (s.buffer, s.currentLine, s.currentColumn, cursorOk s)) =
        some ([['a']], 0, 2, false)) ∧
    (cursorOk (initial [['a', 'b', 'c']] 0 3) = true ∧
      (Replace 4 (initial [['a', 'b', 'c']] 0 3) ['b'] []).map
        (fun s => (s.buffer, s.currentLine, s.currentColumn, cursorOk s)) =
        some ([['a', 'c']], 0, 3, false)) := by
  refine ⟨⟨by decide, by decide, by decide⟩, ⟨by decide, by rfl⟩, ⟨by decide, by rfl⟩,
    ⟨by decide, by rfl⟩, ⟨by decide, by rfl⟩⟩

/-- C15 (fails): from the buffer `["a","b"]` with the cursor at (0,0) and empty stacks, the
keys `j`, `d`, `d` cut the last line and leave the entry `(1, "b")` on the undo stack of a
buffer with one line; the key `u` then makes `Undo` index the buffer at 1. -/
theorem C15_history_out_of_range :
    ((run quietEnv (Session.start (initial [['a'], ['b']] 0 0) oneFile)
        [key 'j', key 'd', key 'd']).editor?).map
      (fun e => (e.buffer, e.undoStack, e.redoStack)) = some ([['a']], [(1, ['b'])], []) ∧
    ¬ HistoryInRange { initial [['a']] 0 0 with undoStack := [(1, ['b'])] } ∧
    (run quietEnv (Session.start (initial [['a'], ['b']] 0 0) oneFile)
        [key 'j', key 'd', key 'd', key 'u']).isStuck = true := by
  refine ⟨by rfl, ?_, by decide⟩
  intro h
  have := h (1, ['b']) (by simp)
  simp [initial] at this

/-- With a valid cursor `CutLine` returns. -/
theorem CutLine_isSome (s : Editor) (hv : CursorValid s) : ∃ s1, CutLine s = some s1 := by
  obtain ⟨h0, h1, _⟩ := hv
  obtain ⟨pre, l, post, hb, hc⟩ := split_at s.buffer s.currentLine h0 h1
  exact ⟨_, CutLine_split s pre post l hb hc⟩

/-- With a valid cursor `PasteLine` returns. -/
theorem PasteLine_isSome (s : Editor) (hv : CursorValid s) : ∃ s1, PasteLine s = some s1 := by
  obtain ⟨_, _, _, l, hl, _⟩ := hv
  unfold PasteLine
  split
  · simp only [hl]
    exact ⟨_, rfl⟩
  · exact ⟨s, rfl⟩

/-- C19: insert-mode character insertion, insert-mode backspace, `CutLine` and `PasteLine`
leave the redo stack exactly as it was, in every state in which they return, and with a
valid cursor all four return. So an entry that `Undo` put on the redo stack outlives a
new edit: after typing `b` before `"a"`, undoing it and typing `c`, the buffer is
`["ac"]` with `(0, "ba")` still on the redo stack, and Ctrl-R then writes `"ba"` over
`"ac"`. -/
theorem C19_edit_keeps_redoStack (s : Editor) (ch : Int) :
    (∀ s1, InsertChar s ch = some s1 → s1.redoStack = s.redoStack) ∧
    (∀ s1, Backspace s = some s1 → s1.redoStack = s.redoStack) ∧
    (∀ s1, CutLine s = some s1 → s1.redoStack = s.redoStack) ∧
    (∀ s1, PasteLine s = some s1 → s1.redoStack = s.redoStack) ∧
    (CursorValid s → (∃ s1, InsertChar s ch = some s1) ∧ (∃ s1, Backspace s = some s1) ∧
      (∃ s1, CutLine s = some s1) ∧ (∃ s1, PasteLine s = some s1)) ∧
    ((run quietEnv (Session.start (initial [['a']] 0 0) oneFile)
        [key 'i', key 'b', 27, key 'u', key 'i', key 'c', 27]).editor?).map
      (fun e => (e.buffer, e.redoStack)) = some ([['a', 'c']], [(0, ['b', 'a'])]) ∧
    ((run quietEnv (Session.start (initial [['a']] 0 0) oneFile)
        [key 'i', key 'b', 27, key 'u', key 'i', key 'c', 27, 18]).editor?).map
      (fun e => (e.buffer, e.redoStack)) = some ([['b', 'a']], []) := by
  refine ⟨?_, ?_, ?_, ?_, ?_, by rfl, by rfl⟩
  · intro s1 h
    unfold InsertChar at h
    split at h
    · cases h
    · split at h
      · cases h; rfl
      · cases h
  · intro s1 h
    unfold Backspace at h
    split at h
    · cases h
    · split at h
      · simp only at h
        split at h
        · cases h; rfl
        · cases h
      · cases h; rfl
  · intro s1 h
    unfold CutLine at h
    split at h
    · split at h
      · cases h
      · cases h; rfl
    · cases h; rfl
  · intro s1 h
    unfold PasteLine at h
    split at h
    · split at h
      · cases h
      · cases h; rfl
    · cases h; rfl
  · intro hv
    obtain ⟨s1, _, _, hI, _⟩ := InsertChar_eq s ch hv
    obtain ⟨s2, hB, _⟩ := Backspace_cursorValid s hv
    exact ⟨⟨s1, hI⟩, ⟨s2, hB⟩, CutLine_isSome s hv, PasteLine_isSome s hv⟩

/-- C19 on the buffer `["ab"]` with the cursor at (0,1), the clipboard `["x"]` and the entry
`(0, "z")` on the redo stack: each of the four edits returns with that entry in place. -/
theorem C19_edit_keeps_redoStack_witness :
    (InsertChar { initial [['a', 'b']] 0 1 with
        clipboard := [['x']], redoStack := [(0, ['z'])] } (key 'c')).map Editor.redoStack =
      some [(0, ['z'])] ∧
    (Backspace { initial [['a', 'b']] 0 1 with
        clipboard := [['x']], redoStack := [(0, ['z'])] }).map Editor.redoStack =
      some [(0, ['z'])] ∧
    (CutLine { initial [['a', 'b']] 0 1 with
        clipboard := [['x']], redoStack := [(0, ['z'])] }).map Editor.redoStack =
      some [(0, ['z'])] ∧
    (PasteLine { initial [['a', 'b']] 0 1 with
        clipboard := [['x']], redoStack := [(0, ['z'])] }).map Editor.redoStack =
      some [(0, ['z'])] := by
  have hv : CursorValid { initial [['a', 'b']] 0 1 with
      clipboard := [['x']], redoStack := [(0, ['z'])] } := (cursorOk_iff _).mp (by decide)
  have h := C19_edit_keeps_redoStack { initial [['a', 'b']] 0 1 with
      clipboard := [['x']], redoStack := [(0, ['z'])] } (key 'c')
  obtain ⟨⟨s1, h1⟩, ⟨s2, h2⟩, ⟨s3, h3⟩, ⟨s4, h4⟩⟩ := h.2.2.2.2.1 hv
  refine ⟨?_, ?_, ?_, ?_⟩
  · rw [h1]; exact congrArg some (h.1 s1 h1)
  · rw [h2]; exact congrArg some (h.2.1 s2 h2)
  · rw [h3]; exact congrArg some (h.2.2.1 s3 h3)
  · rw [h4]; exact congrArg some (h.2.2.2.1 s4 h4)

/-- A run over two runs of keys is the run over the second from where the first waits. -/
theorem run_append (env : Env) (σ : Session) (a b : List Int) :
    run env σ (a ++ b) =
      match run env σ a with
      | Run.waiting σ1 => run env σ1 b
      | r => r := by
  induction a generalizing σ with
  | nil => rfl
  | cons ch rest ih =>
    simp only [List.cons_append, run]
    cases hs : step env σ ch with
    | waiting σ1 => exact ih σ1
    | finished σ1 => rfl
    | exited => rfl
    | stuck => rfl

/-- The buffer and the undo stack after some calls of `Undo` depend only on the buffer and
the undo stack before them. -/
theorem undoTimes_congr (k : Nat) (e1 e2 r2 : Editor) (hb : e1.buffer = e2.buffer)
    (hu : e1.undoStack = e2.undoStack) (h : undoTimes k e2 = some r2) :
    ∃ r1, undoTimes k e1 = some r1 ∧ r1.buffer = r2.buffer ∧
      r1.undoStack = r2.undoStack := by
  induction k generalizing e1 e2 with
  | zero =>
    cases h
    exact ⟨e1, rfl, hb, hu⟩
  | succ k ih =>
    unfold undoTimes at h ⊢
    cases hU2 : Undo e2 with
    | none => rw [hU2] at h; cases h
    | some m2 =>
      rw [hU2] at h
      simp only at h
      have hU1 : ∃ m1, Undo e1 = some m1 ∧ m1.buffer = m2.buffer ∧
          m1.undoStack = m2.undoStack := by
        unfold Undo at hU2 ⊢
        rw [hu, hb]
        cases hst : e2.undoStack with
        | nil =>
          rw [hst] at hU2
          cases hU2
          exact ⟨e1, rfl, hb, by rw [hu, hst]⟩
        | cons entry rest =>
          obtain ⟨line, text⟩ := entry
          rw [hst] at hU2
          simp only at hU2 ⊢
          cases hcur : at? e2.buffer line with
          | none => rw [hcur] at hU2; cases hU2
          | some cur =>
            rw [hcur] at hU2
            cases hU2
            exact ⟨_, rfl, rfl, rfl⟩
      obtain ⟨m1, hm1, hb1, hu1⟩ := hU1
      rw [hm1]
      exact ih m1 m2 hb1 hu1 h

/-- One typed character: in Insert mode, at the top of the input loop and with a valid
cursor, a key that is neither Escape nor backspace leaves the session in such a state
again, pushes one undo entry, and is reversed by `Undo`. -/
theorem step_typed_char (env : Env) (σ : Session) (ch : Int) (hpc : σ.pc = Pc.main)
    (hrun : σ.ed.running = true) (hmode : σ.ed.currentMode = Mode.INSERT)
    (hv : CursorValid σ.ed) (h27 : ch ≠ 27) (hbs : ch ≠ KEY_BACKSPACE) (h127 : ch ≠ 127) :
    ∃ σ1 e2, step env σ ch = Run.waiting σ1 ∧ σ1.pc = Pc.main ∧ σ1.ed.running = true ∧
      σ1.ed.currentMode = Mode.INSERT ∧ CursorValid σ1.ed ∧
      σ1.ed.undoStack.length = σ.ed.undoStack.length + 1 ∧
      Undo σ1.ed = some e2 ∧ e2.buffer = σ.ed.buffer ∧ e2.undoStack = σ.ed.undoStack := by
  obtain ⟨e1, hI, hv1⟩ := InsertChar_cursorValid σ.ed ch hv
  obtain ⟨e1b, l, hl, hIb, hu, hb, _⟩ := InsertChar_eq σ.ed ch hv
  rw [hI] at hIb
  cases hIb
  obtain ⟨e2, _, hU, hb2, hu2, _⟩ := Undo_Redo_line_edit σ.ed e1 σ.ed.currentLine l _ hl hu hb
  have hfr : e1.running = σ.ed.running ∧ e1.currentMode = σ.ed.currentMode := by
    unfold InsertChar at hI
    simp only [hl] at hI
    split at hI
    · cases hI; exact ⟨rfl, rfl⟩
    · cases hI
  refine ⟨{ σ with ed := e1, pc := Pc.main }, e2, ?_, rfl, ?_, ?_, hv1, ?_, hU, hb2, hu2⟩
  · unfold step
    rw [hpc]
    simp only [hrun, hmode]
    unfold insertModeKey
    rw [if_neg h27]
    unfold insertKey
    have hnb : ¬ (ch = KEY_BACKSPACE ∨ ch = 127) := fun h => h.elim hbs h127
    rw [if_neg hnb, hI]
    rfl
  · show e1.running = true
    rw [hfr.1, hrun]
  · show e1.currentMode = Mode.INSERT
    rw [hfr.2, hmode]
  · show e1.undoStack.length = _
    rw [hu]
    rfl

/-- Typing characters in Insert mode: the run waits again, one undo entry was pushed per
key, and `k` calls of `Undo` give the buffer and the undo stack as they were before the
last `k` keys. -/
theorem run_typed_chars (env : Env) (keys : List Int) (σ : Session) (hpc : σ.pc = Pc.main)
    (hrun : σ.ed.running = true) (hmode : σ.ed.currentMode = Mode.INSERT)
    (hv : CursorValid σ.ed)
    (hkeys : ∀ ch ∈ keys, ch ≠ 27 ∧ ch ≠ KEY_BACKSPACE ∧ ch ≠ 127) :
    ∃ σ1, run env σ keys = Run.waiting σ1 ∧ σ1.pc = Pc.main ∧ σ1.ed.running = true ∧
      σ1.ed.currentMode = Mode.INSERT ∧ CursorValid σ1.ed ∧
      σ1.ed.undoStack.length = σ.ed.undoStack.length + keys.length ∧
      ∀ k, k ≤ keys.length → ∃ e σk, undoTimes k σ1.ed = some e ∧
        run env σ (keys.take (keys.length - k)) = Run.waiting σk ∧
        e.buffer = σk.ed.buffer ∧ e.undoStack = σk.ed.undoStack := by
  induction keys using List.reverseRecOn with
  | nil =>
    refine ⟨σ, rfl, hpc, hrun, hmode, hv, rfl, ?_⟩
    intro k hk
    have : k = 0 := by simpa using hk
    subst this
    exact ⟨σ.ed, σ, rfl, rfl, rfl, rfl⟩
  | append_singleton ks c ih =>
    obtain ⟨σm, hrm, hpcm, hrunm, hmodem, hvm, hlenm, hundo⟩ :=
      ih (fun ch hch => hkeys ch (List.mem_append_left _ hch))
    obtain ⟨h27, hbs, h127⟩ := hkeys c (List.mem_append_right _ (List.mem_singleton_self c))
    obtain ⟨σ1, e2, hstep, hpc1, hrun1, hmode1, hv1, hlen1, hU, hb2, hu2⟩ :=
      step_typed_char env σm c hpcm hrunm hmodem hvm h27 hbs h127
    have hr1 : run env σ (ks ++ [c]) = Run.waiting σ1 := by
      rw [run_append, hrm]
      simp only [run, hstep]
    refine ⟨σ1, hr1, hpc1, hrun1, hmode1, hv1, ?_, ?_⟩
    · rw [hlen1, hlenm, List.length_append, List.length_singleton]
      omega
    · intro k hk
      rw [List.length_append, List.length_singleton] at hk ⊢
      cases k with
      | zero =>
        refine ⟨σ1.ed, σ1, rfl, ?_, rfl, rfl⟩
        rw [Nat.sub_zero, ← List.length_singleton c, ← List.length_append, List.take_length]
        exact hr1
      | succ k =>
        obtain ⟨e, σk, hUk, hrk, hbk, huk⟩ := hundo k (by omega)
        obtain ⟨r1, hr, hrb, hru⟩ := undoTimes_congr k e2 σm.ed e hb2 hu2 hUk
        refine ⟨r1, σk, ?_, ?_, by rw [hrb, hbk], by rw [hru, huk]⟩
        · unfold undoTimes
          rw [hU]
          exact hr
        · have : ks.length + 1 - (k + 1) = ks.length - k := by omega
          rw [this, List.take_append_of_le_length (by omega)]
          exact hrk

/-- C11: in Insert mode with a valid cursor, typing `n` keys none of which is Escape or
backspace returns to the input loop with exactly `n` more entries on the undo stack; for
every `k ≤ n`, `k` calls of `Undo` afterwards return and give the buffer as it was after
the first `n - k` keys, and `n` calls give the buffer from before the typing. -/
theorem C11_undo_per_keystroke (env : Env) (σ : Session) (keys : List Int)
    (hpc : σ.pc = Pc.main) (hrun : σ.ed.running = true)
    (hmode : σ.ed.currentMode = Mode.INSERT) (hv : CursorValid σ.ed)
    (hkeys : ∀ ch ∈ keys, ch ≠ 27 ∧ ch ≠ KEY_BACKSPACE ∧ ch ≠ 127) :
    ∃ σ1, run env σ keys = Run.waiting σ1 ∧
      σ1.ed.undoStack.length = σ.ed.undoStack.length + keys.length ∧
      (∀ k, k ≤ keys.length → ∃ e σk, undoTimes k σ1.ed = some e ∧
        run env σ (keys.take (keys.length - k)) = Run.waiting σk ∧
        e.buffer = σk.ed.buffer) ∧
      ∃ e, undoTimes keys.length σ1.ed = some e ∧ e.buffer = σ.ed.buffer := by
  obtain ⟨σ1, hr, _, _, _, _, hlen, hundo⟩ :=
    run_typed_chars env keys σ hpc hrun hmode hv hkeys
  refine ⟨σ1, hr, hlen, ?_, ?_⟩
  · intro k hk
    obtain ⟨e, σk, h1, h2, h3, _⟩ := hundo k hk
    exact ⟨e, σk, h1, h2, h3⟩
  · obtain ⟨e, σk, h1, h2, h3, _⟩ := hundo keys.length (Nat.le_refl _)
    rw [Nat.sub_self, List.take_zero] at h2
    cases h2
    exact ⟨e, h1, h3⟩

/-- C11 for the three keys `x`, `y`, `z` typed at the end of the line `"ab"`. -/
theorem C11_undo_per_keystroke_witness :
    ∃ σ1, run quietEnv
        { ed := { initial [['a', 'b']] 0 2 with currentMode := Mode.INSERT }, fs := oneFile,
          commandBuffer := [], pc := Pc.main } [key 'x', key 'y', key 'z'] = Run.waiting σ1 ∧
      σ1.ed.undoStack.length = 0 + 3 ∧
      (∀ k, k ≤ 3 → ∃ e σk, undoTimes k σ1.ed = some e ∧
        run quietEnv
          { ed := { initial [['a', 'b']] 0 2 with currentMode := Mode.INSERT }, fs := oneFile,
            commandBuffer := [], pc := Pc.main }
          ([key 'x', key 'y', key 'z'].take (3 - k)) = Run.waiting σk ∧
        e.buffer = σk.ed.buffer) ∧
      ∃ e, undoTimes 3 σ1.ed = some e ∧ e.buffer = [['a', 'b']] :=
  C11_undo_per_keystroke quietEnv
    { ed := { initial [['a', 'b']] 0 2 with currentMode := Mode.INSERT }, fs := oneFile,
      commandBuffer := [], pc := Pc.main } [key 'x', key 'y', key 'z'] rfl rfl rfl
    ((cursorOk_iff _).mp (by decide)) (by decide)

/-- A call that goes on with a new editor state keeps the accumulator and returns to the
top of the loop. -/
theorem Run.ofOption_waiting (σ σ1 : Session) (o : Option Editor)
    (h : Run.ofOption σ o = Run.waiting σ1) :
    σ1.commandBuffer = σ.commandBuffer ∧ σ1.pc = Pc.main := by
  cases o with
  | none => cases h
  | some e =>
    unfold Run.ofOption at h
    cases h
    exact ⟨rfl, rfl⟩

/-- A key of Normal mode keeps the accumulator; afterwards the program is at the top of the
loop, or awaits a second key with the editor state untouched. -/
theorem normalKey_result (env : Env) (σ σ1 : Session) (ch : Int)
    (h : normalKey env σ ch = Run.waiting σ1 ∨ normalKey env σ ch = Run.finished σ1) :
    σ1.commandBuffer = σ.commandBuffer ∧
      (σ1.pc = σ.pc ∨ σ1.pc = Pc.main ∨ σ1.ed = σ.ed) := by
  have hopt : ∀ o : Option Editor,
      (Run.ofOption σ o = Run.waiting σ1 ∨ Run.ofOption σ o = Run.finished σ1) →
      σ1.commandBuffer = σ.commandBuffer ∧
        (σ1.pc = σ.pc ∨ σ1.pc = Pc.main ∨ σ1.ed = σ.ed) := by
    intro o ho
    rcases ho with ho | ho
    · obtain ⟨h1, h2⟩ := Run.ofOption_waiting σ σ1 o ho
      exact ⟨h1, Or.inr (Or.inl h2)⟩
    · cases o with
      | none => cases ho
      | some e => cases ho
  generalize hr : normalKey env σ ch = r at h
  unfold normalKey at hr
  by_cases c0 : ch = key 'i'
  · rw [if_pos c0] at hr
    subst hr
    rcases h with h | h <;> cases h
    exact ⟨rfl, Or.inl rfl⟩
  rw [if_neg c0] at hr
  by_cases c1 : ch = key ':'
  · rw [if_pos c1] at hr
    subst hr
    rcases h with h | h <;> cases h
    exact ⟨rfl, Or.inl rfl⟩
  rw [if_neg c1] at hr
  by_cases c2 : ch = key 'h'
  · rw [if_pos c2] at hr
    subst hr
    exact hopt _ h
  rw [if_neg c2] at hr
  by_cases c3 : ch = key 'j'
  · rw [if_pos c3] at hr
    subst hr
    exact hopt _ h
  rw [if_neg c3] at hr
  by_cases c4 : ch = key 'k'
  · rw [if_pos c4] at hr
    subst hr
    exact hopt _ h
  rw [if_neg c4] at hr
  by_cases c5 : ch = key 'l'
  · rw [if_pos c5] at hr
    subst hr
    exact hopt _ h
  rw [if_neg c5] at hr
  by_cases c6 : ch = key 'd'
  · rw [if_pos c6] at hr
    subst hr
    rcases h with h | h <;> cases h
    exact ⟨rfl, Or.inr (Or.inr rfl)⟩
  rw [if_neg c6] at hr
  by_cases c7 : ch = key 'y'
  · rw [if_pos c7] at hr
    subst hr
    rcases h with h | h <;> cases h
    exact ⟨rfl, Or.inr (Or.inr rfl)⟩
  rw [if_neg c7] at hr
  by_cases c8 : ch = key 'p'
  · rw [if_pos c8] at hr
    subst hr
    exact hopt _ h
  rw [if_neg c8] at hr
  by_cases c9 : ch = key 'u'
  · rw [if_pos c9] at hr
    subst hr
    exact hopt _ h
  rw [if_neg c9] at hr
  by_cases c10 : ch = key '/'
  · rw [if_pos c10] at hr
    subst hr
    exact hopt _ h
  rw [if_neg c10] at hr
  by_cases c11 : ch = key 'n'
  · rw [if_pos c11] at hr
    subst hr
    exact hopt _ h
  rw [if_neg c11] at hr
  by_cases c12 : ch = key 'N'
  · rw [if_pos c12] at hr
    subst hr
    exact hopt _ h
  rw [if_neg c12] at hr
  by_cases c13 : ch = 26
  · rw [if_pos c13] at hr
    subst hr
    rcases h with h | h <;> cases h
    exact ⟨rfl, Or.inl rfl⟩
  rw [if_neg c13] at hr
  by_cases c14 : ch = 18
  · rw [if_pos c14] at hr
    subst hr
    exact hopt _ h
  rw [if_neg c14] at hr
  subst hr
  rcases h with h | h <;> cases h
  exact ⟨rfl, Or.inl rfl⟩

/-- One key keeps the invariant of the accumulator. -/
theorem step_AccInv (env : Env) (σ σ1 : Session) (ch : Int) (hinv : AccInv σ)
    (h : step env σ ch = Run.waiting σ1 ∨ step env σ ch = Run.finished σ1) :
    AccInv σ1 := by
  obtain ⟨hacc, hpcn⟩ := hinv
  have hfromOpt : ∀ o : Option Editor, σ.commandBuffer = [] →
      (Run.ofOption σ o = Run.waiting σ1 ∨ Run.ofOption σ o = Run.finished σ1) →
      AccInv σ1 := by
    intro o hempty ho
    rcases ho with ho | ho
    · obtain ⟨h1, h2⟩ := Run.ofOption_waiting σ σ1 o ho
      exact ⟨fun _ => by rw [h1, hempty], fun hne => absurd h2 hne⟩
    · cases o with
      | none => cases ho
      | some e => cases ho
  unfold step at h
  split at h
  · rename_i hpc
    have hn : σ.ed.currentMode = Mode.NORMAL := hpcn (by rw [hpc]; decide)
    have hempty : σ.commandBuffer = [] := hacc (by rw [hn]; decide)
    split at h
    · exact hfromOpt _ hempty h
    · rcases h with h | h <;> cases h
      exact ⟨fun _ => hempty, fun hne => absurd rfl hne⟩
  · rename_i hpc
    have hn : σ.ed.currentMode = Mode.NORMAL := hpcn (by rw [hpc]; decide)
    have hempty : σ.commandBuffer = [] := hacc (by rw [hn]; decide)
    split at h
    · exact hfromOpt _ hempty h
    · rcases h with h | h <;> cases h
      exact ⟨fun _ => hempty, fun hne => absurd rfl hne⟩
  · rename_i hpc
    split at h
    · rcases h with h | h <;> cases h
      exact ⟨hacc, hpcn⟩
    · split at h
      · rename_i hn
        have hempty : σ.commandBuffer = [] := hacc (by rw [hn]; decide)
        obtain ⟨h1, h2⟩ := normalKey_result env σ σ1 ch h
        refine ⟨fun _ => by rw [h1, hempty], ?_⟩
        intro hne
        rcases h2 with h2 | h2 | h2
        · exact absurd (h2.trans hpc) hne
        · exact absurd h2 hne
        · rw [h2]; exact hn
      · rename_i hn
        have hempty : σ.commandBuffer = [] := hacc (by rw [hn]; decide)
        unfold insertModeKey at h
        split at h
        · rcases h with h | h <;> cases h
          exact ⟨fun _ => hempty, fun hne => absurd hpc hne⟩
        · exact hfromOpt _ hempty h
      · rename_i hn
        unfold commandKey at h
        split at h
        · unfold Run.ofOutcome at h
          split at h
          · rcases h with h | h <;> cases h
            exact ⟨fun _ => rfl, fun hne => absurd rfl hne⟩
          · rcases h with h | h <;> cases h
          · rcases h with h | h <;> cases h
        · rcases h with h | h <;> cases h
          exact ⟨fun hc => absurd hn hc, fun hne => absurd hpc hne⟩

/-- Every state a run comes to keeps the invariant of the accumulator. -/
theorem run_AccInv (env : Env) (keys : List Int) (σ σ1 : Session) (hinv : AccInv σ)
    (h : run env σ keys = Run.waiting σ1 ∨ run env σ keys = Run.finished σ1) :
    AccInv σ1 := by
  induction keys generalizing σ with
  | nil =>
    rcases h with h | h <;> cases h
    exact hinv
  | cons ch rest ih =>
    unfold run at h
    cases hs : step env σ ch with
    | waiting σ2 =>
      rw [hs] at h
      exact ih σ2 (step_AccInv env σ σ2 ch hinv (Or.inl hs)) h
    | finished σ2 =>
      rw [hs] at h
      rcases h with h | h <;> cases h
      exact step_AccInv env σ σ1 ch hinv (Or.inr hs)
    | exited =>
      rw [hs] at h
      rcases h with h | h <;> cases h
    | stuck =>
      rw [hs] at h
      rcases h with h | h <;> cases h

/-- The run on a key and the keys after it. -/
theorem run_cons (env : Env) (σ : Session) (ch : Int) (rest : List Int) :
    run env σ (ch :: rest) =
      match step env σ ch with
      | Run.waiting σ1 => run env σ1 rest
      | r => r := rfl

/-- In Normal mode the key `:` sets the mode to Command and touches nothing else. -/
theorem step_colon (env : Env) (ed : Editor) (fs : FileSystem) (acc : Line)
    (hrun : ed.running = true) (hmode : ed.currentMode = Mode.NORMAL) :
    step env { ed := ed, fs := fs, commandBuffer := acc, pc := Pc.main } (key ':') =
      Run.waiting { ed := { ed with currentMode := Mode.COMMAND }, fs := fs,
                    commandBuffer := acc, pc := Pc.main } := by
  unfold step
  simp only [hrun, hmode]
  unfold normalKey
  simp [key, hrun]

/-- In Command mode a key other than Enter is appended to the accumulator. -/
theorem step_command_char (env : Env) (ed : Editor) (fs : FileSystem) (acc : Line)
    (ch : Int) (hrun : ed.running = true) (hmode : ed.currentMode = Mode.COMMAND)
    (hch : ch ≠ key '\r') :
    step env { ed := ed, fs := fs, commandBuffer := acc, pc := Pc.main } ch =
      Run.waiting { ed := ed, fs := fs, commandBuffer := acc ++ [toChar ch],
                    pc := Pc.main } := by
  unfold step
  simp only [hrun, hmode]
  unfold commandKey
  rw [if_neg hch]
  simp [hrun]

/-- In Command mode Enter dispatches the accumulator. -/
theorem step_enter (env : Env) (ed : Editor) (fs : FileSystem) (acc : Line)
    (hrun : ed.running = true) (hmode : ed.currentMode = Mode.COMMAND) :
    step env { ed := ed, fs := fs, commandBuffer := acc, pc := Pc.main } (key '\r') =
      Run.ofOutcome (ProcessCommand env fs ed acc) := by
  unfold step
  simp only [hrun, hmode]
  unfold commandKey
  rw [if_pos rfl]
  simp [hrun]

/-- In Command mode every key other than Enter is appended to the accumulator. -/
theorem run_command_chars (env : Env) (typed : List Int) (ed : Editor) (fs : FileSystem)
    (acc : Line) (hrun : ed.running = true) (hmode : ed.currentMode = Mode.COMMAND)
    (hkeys : ∀ ch ∈ typed, ch ≠ key '\r') :
    run env { ed := ed, fs := fs, commandBuffer := acc, pc := Pc.main } typed =
      Run.waiting { ed := ed, fs := fs, commandBuffer := acc ++ typed.map toChar,
                    pc := Pc.main } := by
  induction typed generalizing acc with
  | nil =>
    rw [List.map_nil, List.append_nil]
    rfl
  | cons ch rest ih =>
    rw [run_cons, step_command_char env ed fs acc ch hrun hmode
      (hkeys ch (List.mem_cons_self _ _))]
    simp only
    rw [ih _ (fun c hc => hkeys c (List.mem_cons_of_mem _ hc)), List.map_cons,
      List.append_assoc, List.singleton_append]

/-- C18: in every state that `ProcessInput` reaches from its start (empty accumulator) by
any keys, the accumulator is empty unless the mode is Command. So when `:` is pressed in
Normal mode and keys other than Enter follow, Enter dispatches exactly the characters of
those keys. -/
theorem C18_accumulator_empty (env : Env) (e : Editor) (fs : FileSystem) (keys : List Int)
    (σ : Session)
    (h : run env (Session.start e fs) keys = Run.waiting σ ∨
      run env (Session.start e fs) keys = Run.finished σ) :
    (σ.ed.currentMode ≠ Mode.COMMAND → σ.commandBuffer = []) ∧
    ∀ typed : List Int, σ.pc = Pc.main → σ.ed.running = true →
      σ.ed.currentMode = Mode.NORMAL → (∀ ch ∈ typed, ch ≠ key '\r') →
      run env σ (key ':' :: typed) =
        Run.waiting { σ with ed := { σ.ed with currentMode := Mode.COMMAND },
                             commandBuffer := typed.map toChar } ∧
      run env σ (key ':' :: (typed ++ [key '\r'])) =
        Run.ofOutcome (ProcessCommand env σ.fs { σ.ed with currentMode := Mode.COMMAND }
          (typed.map toChar)) := by
  have hinv : AccInv σ :=
    run_AccInv env keys (Session.start e fs) σ
      ⟨fun _ => rfl, fun hne => absurd rfl hne⟩ h
  refine ⟨hinv.1, ?_⟩
  intro typed hpc hrun hmode hkeys
  have hempty : σ.commandBuffer = [] := hinv.1 (by rw [hmode]; decide)
  obtain ⟨ed, fs1, acc, pc⟩ := σ
  simp only at hpc hrun hmode hempty
  subst hpc
  subst hempty
  have hfirst : run env { ed := ed, fs := fs1, commandBuffer := [], pc := Pc.main }
      (key ':' :: typed) =
      Run.waiting { ed := { ed with currentMode := Mode.COMMAND }, fs := fs1,
                    commandBuffer := typed.map toChar, pc := Pc.main } := by
    rw [run_cons, step_colon env ed fs1 [] hrun hmode]
    simp only
    rw [run_command_chars env typed { ed with currentMode := Mode.COMMAND } fs1 [] hrun rfl
      hkeys, List.nil_append]
  refine ⟨hfirst, ?_⟩
  have happ : key ':' :: (typed ++ [key '\r']) = (key ':' :: typed) ++ [key '\r'] := rfl
  rw [happ, run_append, hfirst]
  simp only
  rw [run_cons, step_enter env { ed with currentMode := Mode.COMMAND } fs1
    (typed.map toChar) hrun rfl]
  cases Run.ofOutcome (ProcessCommand env fs1 { ed with currentMode := Mode.COMMAND }
    (typed.map toChar)) <;> rfl

/-- C18 for the keys `:`, `x`, Enter, `i`, `a`, Escape typed on the buffer `["a"]`, and for
the command `z` typed after them. -/
theorem C18_accumulator_empty_witness :
    ({ ed := { initial [['a', 'a']] 0 1 with undoStack := [(0, ['a'])] }, fs := oneFile,
       commandBuffer := [], pc := Pc.main } : Session).commandBuffer = [] ∧
    run quietEnv
        { ed := { initial [['a', 'a']] 0 1 with undoStack := [(0, ['a'])] }, fs := oneFile,
          commandBuffer := [], pc := Pc.main } (key ':' :: ([key 'z'] ++ [key '\r'])) =
      Run.ofOutcome (ProcessCommand quietEnv oneFile
        { { initial [['a', 'a']] 0 1 with undoStack := [(0, ['a'])] } with
          currentMode := Mode.COMMAND } ([key 'z'].map toChar)) :=
  ⟨(C18_accumulator_empty quietEnv (initial [['a']] 0 0) oneFile
      [key ':', key 'x', key '\r', key 'i', key 'a', 27]
      { ed := { initial [['a', 'a']] 0 1 with undoStack := [(0, ['a'])] }, fs := oneFile,
        commandBuffer := [], pc := Pc.main } (Or.inl rfl)).1 (by decide),
   ((C18_accumulator_empty quietEnv (initial [['a']] 0 0) oneFile
      [key ':', key 'x', key '\r', key 'i', key 'a', 27]
      { ed := { initial [['a', 'a']] 0 1 with undoStack := [(0, ['a'])] }, fs := oneFile,
        commandBuffer := [], pc := Pc.main } (Or.inl rfl)).2
      [key 'z'] rfl rfl rfl (by decide)).2⟩

end Atom
